import Mathlib

/-!
Verification of the `particle-life` simulation core against its specification.

The Rust sources are shallowly embedded over `ℚ`:

* `f32` scalars become `ℚ`; `glam::Vec3` becomes a record of three rationals.
* `sqrt` (used by `length`, `normalize`, `distance`) and `exp` (used by the
  Metropolis acceptance rule) are not rational-valued, so every definition
  that needs them is parameterised by a function `sq : ℚ → ℚ`
  (resp. `ex : ℚ → ℚ`).  Concrete theorems instantiate `sq` with `ratSqrt`
  (exact on squares of rationals) and keep every intermediate vector on one
  coordinate axis, where `f32::sqrt` is exact as well.
* `zwohash::HashMap<[i32; 3], Vec<usize>>` becomes an association list with
  unique keys; iteration order of the hash map is unspecified in Rust and no
  theorem below depends on the entry order of the association list.
* Code that can panic (`Option::unwrap`, used by `replace_point`) returns
  `Option`, with `none` for the panic.
-/

namespace ParticleLife

/-- Embedding of `glam::Vec3` with rational coordinates. -/
structure Vec3 where
  x : ℚ
  y : ℚ
  z : ℚ
deriving DecidableEq, Repr

namespace Vec3

instance : Zero Vec3 := ⟨⟨0, 0, 0⟩⟩

instance : Add Vec3 := ⟨fun a b => ⟨a.x + b.x, a.y + b.y, a.z + b.z⟩⟩

instance : Sub Vec3 := ⟨fun a b => ⟨a.x - b.x, a.y - b.y, a.z - b.z⟩⟩

instance : SMul ℚ Vec3 := ⟨fun c v => ⟨c * v.x, c * v.y, c * v.z⟩⟩

/-- `glam`: `Vec3::length_squared`, the dot product of the vector with itself. -/
def lengthSq (v : Vec3) : ℚ := v.x * v.x + v.y * v.y + v.z * v.z

/-- `glam`: `Vec3::distance_squared(a, b) = (a - b).length_squared()`. -/
def distSq (a b : Vec3) : ℚ := (a - b).lengthSq

/-- `glam`: `Vec3::length`, parameterised by the square-root model `sq`. -/
def length (sq : ℚ → ℚ) (v : Vec3) : ℚ := sq v.lengthSq

/-- `glam`: `Vec3::normalize = self / self.length()`, parameterised by the
square-root model.  (For a zero-length vector `f32` arithmetic yields NaN;
over `ℚ`, division by zero yields the zero vector.  No theorem below
evaluates `normalize` on a zero-length vector.) -/
def normalize (sq : ℚ → ℚ) (v : Vec3) : Vec3 := (1 / length sq v) • v

end Vec3

/-- Exact rational square root model: exact on squares of nonnegative
rationals (where `f32::sqrt` on exactly representable inputs is exact too),
and monotone-floor-like elsewhere.  Used to instantiate the abstract `sq`
parameter in concrete witnesses and counterexamples. -/
def ratSqrt (q : ℚ) : ℚ := mkRat (Int.sqrt q.num) (Nat.sqrt q.den)

/-- A grid-cell coordinate: `[i32; 3]` in the source (the `as i32` cast is
modelled as exact `ℤ`, which agrees with the source for all in-range values). -/
abbrev Cell3 := ℤ × ℤ × ℤ

/-- The entry list of a hash map from cell coordinates to bucket contents.
Models `zwohash::HashMap<[i32; 3], Vec<usize>>`; keys are kept unique by the
operations below, mirroring the hash-map semantics. -/
abbrev CellMap (κ : Type) := List (κ × List ℕ)

namespace CellMap

variable {κ : Type} [DecidableEq κ]

/-- `HashMap::get(&key)`: the bucket stored under `k`, if any. -/
def getCell : CellMap κ → κ → Option (List ℕ)
  | [], _ => none
  | (k', l) :: rest, k => if k' = k then some l else getCell rest k

/-- `HashMap::entry(key).or_default().push(idx)`: append `idx` to the bucket
under `k`, inserting an empty bucket first if the key is absent. -/
def pushEntry : CellMap κ → κ → ℕ → CellMap κ
  | [], k, i => [(k, [i])]
  | (k', l) :: rest, k, i =>
      if k' = k then (k', l ++ [i]) :: rest else (k', l) :: pushEntry rest k i

/-- Overwrite the bucket stored under `k` (the key is present when used). -/
def updateCell : CellMap κ → κ → List ℕ → CellMap κ
  | [], _, _ => []
  | (k', l) :: rest, k, nl =>
      if k' = k then (k', nl) :: rest else (k', l) :: updateCell rest k nl

/-- The keys of the map, in entry order. -/
def keys (m : CellMap κ) : List κ := m.map (·.1)

/-- Total number of occurrences of the particle index `j` over all buckets. -/
def occurrences (m : CellMap κ) (j : ℕ) : ℕ := (m.map (fun e => e.2.count j)).sum

/-- The spec's Spatial-Index invariant over the raw cell map (spec §3):
keys are unique (it is a map), every particle index `j < N` sits in the
buckets exactly once, no other index occurs, and every bucket member sits
under the key `key j` prescribed for it. -/
def ConsistentWith (m : CellMap κ) (key : ℕ → κ) (N : ℕ) : Prop :=
  (keys m).Nodup ∧ (∀ j, occurrences m j = if j < N then 1 else 0) ∧
    ∀ e ∈ m, ∀ j ∈ e.2, e.1 = key j

end CellMap

/-- `quantize` from `query_accel.rs`: componentwise `floor(coord / radius)`. -/
def quantize (p : Vec3) (radius : ℚ) : Cell3 :=
  (⌊p.x / radius⌋, ⌊p.y / radius⌋, ⌊p.z / radius⌋)

/-- `add` from `query_accel.rs`: componentwise sum of two cell coordinates. -/
def cellAdd (a b : Cell3) : Cell3 := (a.1 + b.1, a.2.1 + b.2.1, a.2.2 + b.2.2)

/-- `neighborhood::<3>() = combos(-1, 1, 1)` from `query_accel.rs`: the 27
offsets of the 3×3×3 cell neighborhood, in the order the `combos` counter
loop produces them (first coordinate varies fastest). -/
def neighborhood : List Cell3 :=
  ([-1, 0, 1] : List ℤ).flatMap fun dz =>
    ([-1, 0, 1] : List ℤ).flatMap fun dy =>
      ([-1, 0, 1] : List ℤ).map fun dx => ((dx, dy, dz) : Cell3)

/-- The counter increment of `combos` from `query_accel.rs` (the inner
`for i in 0..dims.len()` loop), specialised to three dimensions: bump the
first coordinate still below `max` by `step`, resetting the earlier ones to
`min`. -/
def combosNext (minv maxv step : ℤ) : Cell3 → Cell3
  | (x, y, z) =>
    if x < maxv then (x + step, y, z)
    else if y < maxv then (minv, y + step, z)
    else if z < maxv then (minv, minv, z + step)
    else (minv, minv, minv)

/-- The push/stop/increment loop of `combos` from `query_accel.rs`, with
explicit fuel (the source loop terminates because the counter reaches
`[max; 3]`; 27 iterations suffice for the `combos(-1, 1, 1)` call). -/
def combosGo (minv maxv step : ℤ) : ℕ → Cell3 → List Cell3
  | 0, _ => []
  | fuel + 1, dims =>
    dims :: (if dims = (maxv, maxv, maxv) then []
      else combosGo minv maxv step fuel (combosNext minv maxv step dims))

/-- `QueryAccelerator` from `query_accel.rs`.  The `neighbors` field of the
source always holds the constant `neighborhood` list and is not duplicated
here. -/
structure QueryAccelerator where
  cells : CellMap Cell3
  radius : ℚ
  radius_sq : ℚ
deriving DecidableEq, Repr

namespace QueryAccelerator

/-- Insertion loop of `QueryAccelerator::new`: bucket each point (with its
enumeration index, starting at `idx`) under its quantized cell. -/
def buildGo (radius : ℚ) : List Vec3 → ℕ → CellMap Cell3 → CellMap Cell3
  | [], _, cs => cs
  | p :: rest, idx, cs =>
      buildGo radius rest (idx + 1) (cs.pushEntry (quantize p radius) idx)

/-- `QueryAccelerator::new(points, radius)`. -/
def new (points : List Vec3) (radius : ℚ) : QueryAccelerator :=
  { cells := buildGo radius points 0 []
    radius := radius
    radius_sq := radius * radius }

/-- `QueryAccelerator::query_neighbors(points, query_idx, query_point)`:
visit the 27 neighboring cells of the query point's cell and keep the
indices distinct from `query_idx` whose squared distance to the query point
is at most `radius_sq`.  The lazy Rust iterator is materialised as the list
of indices it yields, in order. -/
def query_neighbors (self : QueryAccelerator) (points : List Vec3)
    (query_idx : ℕ) (query_point : Vec3) : List ℕ :=
  let origin := quantize query_point self.radius
  (neighborhood.map (fun diff =>
    match self.cells.getCell (cellAdd origin diff) with
    | none => []
    | some cell_indices =>
        cell_indices.filter fun idx =>
          idx ≠ query_idx ∧
            Vec3.distSq (points.getD idx 0) query_point ≤ self.radius_sq)).flatten

/-- `QueryAccelerator::replace_point(idx, prev, current)`.  The two
`unwrap`s of the source (bucket missing, index missing from the bucket)
are modelled as `none` (panic).  `Vec::remove` at the position of the first
occurrence of `idx` is `List.erase idx`. -/
def replace_point (self : QueryAccelerator) (idx : ℕ) (prev current : Vec3) :
    Option QueryAccelerator :=
  match self.cells.getCell (quantize prev self.radius) with
  | none => none
  | some prev_bins =>
      if idx ∈ prev_bins then
        let removed := self.cells.updateCell (quantize prev self.radius)
          (prev_bins.erase idx)
        some { self with
          cells := removed.pushEntry (quantize current self.radius) idx }
      else none

/-- `QueryAccelerator::tiles()`: the bucket entries. -/
def tiles (self : QueryAccelerator) : List (Cell3 × List ℕ) := self.cells

/-- The cell assignment the index must agree with: each particle index maps
to the quantized cell of its current position. -/
def keyOf (pos : List Vec3) (radius : ℚ) (j : ℕ) : Cell3 :=
  quantize (pos.getD j 0) radius

/-- The Spatial-Index invariant for the 3-D accelerator (spec §3). -/
def Consistent (a : QueryAccelerator) (pos : List Vec3) : Prop :=
  CellMap.ConsistentWith a.cells (keyOf pos a.radius) pos.length

/-- A sequence of `replace_point` calls in which every call relocates a live
index from its currently recorded position (claim C2's premise), tracking
the recorded positions alongside the accelerator. -/
def applyMoves : QueryAccelerator → List Vec3 → List (ℕ × Vec3) →
    Option (QueryAccelerator × List Vec3)
  | a, pos, [] => some (a, pos)
  | a, pos, (i, p) :: ms =>
    match a.replace_point i (pos.getD i 0) p with
    | none => none
    | some a' => applyMoves a' (pos.set i p) ms

end QueryAccelerator

/-- The per-type-pair behaviour coefficients.  The struct definition lives in
the missing `sim.rs`; its four fields are named by `client.rs`'s `Field` enum
and by `PeicewiseForce` in `mcmc.rs`, which carries the same fields. -/
structure Behaviour where
  default_repulse : ℚ
  inter_threshold : ℚ
  inter_strength : ℚ
  inter_max_dist : ℚ
deriving DecidableEq, Repr

/-- `PeicewiseForce::force` from `mcmc.rs` (the piecewise force of spec
§4.1): a linear repulsion ramp below `inter_threshold`, zero beyond
`inter_max_dist`, and a tent function in between.  `Behaviour::force` of the
missing `sim.rs` is this same function (spec §4.1 describes both with one
formula). -/
def Behaviour.force (b : Behaviour) (dist : ℚ) : ℚ :=
  if dist < b.inter_threshold then
    let f := dist / b.inter_threshold
    (1 - f) * -b.default_repulse
  else if dist > b.inter_max_dist then
    0
  else
    let x := dist - b.inter_threshold
    let x := x / (b.inter_max_dist - b.inter_threshold)
    let x := x * 2 - 1
    let x := 1 - |x|
    x * b.inter_strength

/-- Simulation configuration.  Modelled from the spec: `sim.rs` (absent from
`src/`) holds `SimConfig` with per-type display colors and the
`type_count × type_count` behaviour matrix; the matrix is stored row-major
as in `client.rs`'s `config_ui` (`behaviours[column + row_idx * len]`).
Colors are irrelevant to every claim and are represented only by the number
of types. -/
structure SimConfig where
  type_count : ℕ
  behaviours : List Behaviour
deriving Repr

/-- `SimConfig::get_behaviour(a, b)`.  Modelled from the spec: the behaviour
matrix is "indexed by `(type_a, type_b)`" (spec §3), row-major as laid out
by `config_ui`. -/
def SimConfig.get_behaviour (cfg : SimConfig) (a b : ℕ) : Behaviour :=
  cfg.behaviours.getD (b + a * cfg.type_count) ⟨0, 0, 0, 0⟩

/-- `SimConfig::max_interaction_radius()`.  Modelled from the spec: "the
cached maximum interaction radius (= max over all entries of
`inter_max_dist`)" (spec §3). -/
def SimConfig.max_interaction_radius (cfg : SimConfig) : ℚ :=
  (cfg.behaviours.map (·.inter_max_dist)).foldl max 0

/-- `SimState` (defined in the missing `sim.rs`; fields as used by
`newton.rs`): positions, velocities, last accelerations (for the
variable-timestep integrator), per-particle types (`colors`), and the owned
spatial index (`query` in `newton.rs`; the `client.rs` snapshot calls the
same field `accel`). -/
structure SimState where
  pos : List Vec3
  vel : List Vec3
  accel : List Vec3
  colors : List ℕ
  query : QueryAccelerator
deriving Repr

/-- `NewtonConfig` from `newton.rs`. -/
structure NewtonConfig where
  dt : ℚ
  damping : ℚ
deriving Repr

/-- `total_force` from `newton.rs`: sum of `force(dist) * normalize(b - a)`
over the neighbors of particle `i`, reading the live `state`. -/
def total_force (sq : ℚ → ℚ) (i : ℕ) (state : SimState) (cfg : SimConfig) :
    Vec3 :=
  (state.query.query_neighbors state.pos i (state.pos.getD i 0)).foldl
    (fun f neighbor =>
      let a := state.pos.getD i 0
      let b := state.pos.getD neighbor 0
      let diff := b - a
      let dist := Vec3.length sq diff
      let normal := Vec3.normalize sq diff
      let behav := cfg.get_behaviour (state.colors.getD i 0)
        (state.colors.getD neighbor 0)
      f + behav.force dist • normal)
    0

/-- The body of `newton_step`'s `for i in 0..len` loop: compute the force on
`i` from the current (partially updated) state, damp the velocity, move the
particle. -/
def newtonStepOne (sq : ℚ → ℚ) (cfg : SimConfig) (newton : NewtonConfig)
    (st : SimState) (i : ℕ) : SimState :=
  let total_accel := total_force sq i st cfg
  let vel := st.vel.getD i 0 + newton.dt • total_accel
  let vel := (1 - newton.damping) • vel
  { st with
    vel := st.vel.set i vel
    pos := st.pos.set i (st.pos.getD i 0 + newton.dt • vel) }

/-- `newton_step` from `newton.rs`: the sequential loop over all particle
indices, updating positions and velocities in place. -/
def newton_step (sq : ℚ → ℚ) (state : SimState) (cfg : SimConfig)
    (newton : NewtonConfig) : SimState :=
  (List.range state.pos.length).foldl (newtonStepOne sq cfg newton) state

/-- The state after the first `i` iterations of `newton_step`'s particle
loop (the partially updated state particle `i`'s force evaluation sees). -/
def newtonPrefix (sq : ℚ → ℚ) (cfg : SimConfig) (newton : NewtonConfig)
    (state : SimState) (i : ℕ) : SimState :=
  (List.range i).foldl (newtonStepOne sq cfg newton) state

/-- Modelled from claim C4's wording (a comparison definition following the
spec, not the source): the fixed-step update in which every particle's
force is evaluated on the pre-step snapshot of the state, and only then are
all velocities and positions updated. -/
def newton_step_snapshot (sq : ℚ → ℚ) (state : SimState) (cfg : SimConfig)
    (newton : NewtonConfig) : SimState :=
  { state with
    vel := (List.range state.pos.length).map fun i =>
      (1 - newton.damping) • (state.vel.getD i 0
        + newton.dt • total_force sq i state cfg)
    pos := (List.range state.pos.length).map fun i =>
      state.pos.getD i 0 + newton.dt • ((1 - newton.damping)
        • (state.vel.getD i 0 + newton.dt • total_force sq i state cfg)) }

/-- `NewtonVariableConfig` from `newton.rs`. -/
structure NewtonVariableConfig where
  dt : ℚ
  sub_dt : ℚ
  max_steps : ℕ
  damping : ℚ
deriving Repr

/-- `NewtonVariableConfig::min_dt() = dt / max_steps as f32`. -/
def NewtonVariableConfig.min_dt (c : NewtonVariableConfig) : ℚ :=
  c.dt / (c.max_steps : ℚ)

/-- `extrapolate` from `newton.rs`: predict `idx`'s position and velocity at
`global_time` from its state at its own last update time. -/
def extrapolate (state : SimState) (idx : ℕ) (time : List ℚ)
    (global_time : ℚ) : Vec3 × Vec3 :=
  let dt := global_time - time.getD idx 0
  (state.pos.getD idx 0 + dt • state.vel.getD idx 0
      + (dt ^ 2 / 2) • state.accel.getD idx 0,
    state.vel.getD idx 0 + dt • state.accel.getD idx 0)

/-- `calculate_delta_time` from `newton.rs`, translated verbatim: note that
`rel_vel_sq` is `distance_squared(predict_vel, state.pos[idx])` in the
source — the predicted *velocity* of the neighbor compared against the
*position* of `idx`. -/
def calculate_delta_time (sq : ℚ → ℚ) (state : SimState) (time : List ℚ)
    (idx : ℕ) (global_time : ℚ) (newton : NewtonVariableConfig) : ℚ :=
  let cand :=
    (state.query.query_neighbors state.pos idx (state.pos.getD idx 0)).foldl
      (fun (min_dt : Option ℚ) j =>
        let predict := extrapolate state j time global_time
        let distance_sq := Vec3.distSq predict.1 (state.pos.getD idx 0)
        let rel_vel_sq := Vec3.distSq predict.2 (state.pos.getD idx 0)
        if 0 < rel_vel_sq then
          let dt := sq (distance_sq / rel_vel_sq)
          match min_dt with
          | some mn => if dt > mn then min_dt else some dt
          | none => some dt
        else min_dt)
      none
  max (cand.getD newton.min_dt) newton.min_dt

/-- Modelled from the spec: the delta-time rule of spec §4.4-DT, which
divides by "the squared magnitude of the relative velocity" between `idx`
and the neighbor's extrapolated velocity — i.e. the same computation as
`calculate_delta_time` but with `rel_vel_sq = distance_squared(predict_vel,
state.vel[idx])`.  Used only to exhibit the divergence of the source from
the spec. -/
def calculate_delta_time_spec (sq : ℚ → ℚ) (state : SimState) (time : List ℚ)
    (idx : ℕ) (global_time : ℚ) (newton : NewtonVariableConfig) : ℚ :=
  let cand :=
    (state.query.query_neighbors state.pos idx (state.pos.getD idx 0)).foldl
      (fun (min_dt : Option ℚ) j =>
        let predict := extrapolate state j time global_time
        let distance_sq := Vec3.distSq predict.1 (state.pos.getD idx 0)
        let rel_vel_sq := Vec3.distSq predict.2 (state.vel.getD idx 0)
        if 0 < rel_vel_sq then
          let dt := sq (distance_sq / rel_vel_sq)
          match min_dt with
          | some mn => if dt > mn then min_dt else some dt
          | none => some dt
        else min_dt)
      none
  max (cand.getD newton.min_dt) newton.min_dt

/-- `total_force_extrapolate` from `newton.rs`: like `total_force`, but each
neighbor's position is extrapolated to `global_time` first. -/
def total_force_extrapolate (sq : ℚ → ℚ) (i : ℕ) (state : SimState)
    (cfg : SimConfig) (time : List ℚ) (global_time : ℚ) : Vec3 :=
  (state.query.query_neighbors state.pos i (state.pos.getD i 0)).foldl
    (fun f neighbor =>
      let a := state.pos.getD i 0
      let predict := extrapolate state neighbor time global_time
      let diff := predict.1 - a
      let dist := Vec3.length sq diff
      let normal := Vec3.normalize sq diff
      let behav := cfg.get_behaviour (state.colors.getD i 0)
        (state.colors.getD neighbor 0)
      f + behav.force dist • normal)
    0

/-- `BinaryHeap::pop` on the `TimeIndex` min-heap: removes and returns an
element with minimal scheduled time (the heap's tie order among equal times
is unspecified; this model takes the first-listed minimum, and no theorem
depends on the tie order). -/
def popMin : List (ℚ × ℕ) → Option ((ℚ × ℕ) × List (ℚ × ℕ))
  | [] => none
  | e :: rest =>
    match popMin rest with
    | none => some (e, [])
    | some (m, rest') => if e.1 ≤ m.1 then some (e, rest) else some (m, e :: rest')

/-- Result of the event loop of `newton_step_variable_dt`: ran out of fuel
(the loop would keep going), panicked inside `replace_point`, or drained the
queue and returned. -/
inductive LoopRes where
  | fuelOut : LoopRes
  | panicked : LoopRes
  | done : SimState → List ℚ → LoopRes
deriving Repr

/-- The velocities of a finished event loop (`[]` when it did not finish),
for stating concrete evaluations. -/
def LoopRes.velOf : LoopRes → List Vec3
  | .done st _ => st.vel
  | _ => []

/-- The positions of a finished event loop (`[]` when it did not finish). -/
def LoopRes.posOf : LoopRes → List Vec3
  | .done st _ => st.pos
  | _ => []

/-- One iteration body of the `while let Some(TimeIndex(..)) = pq.pop()`
loop of `newton_step_variable_dt`, returning the updated state, per-particle
times and queue, or `none` on a `replace_point` panic. -/
def varStep (sq : ℚ → ℚ) (cfg : SimConfig) (newton : NewtonVariableConfig)
    (state : SimState) (time : List ℚ) (next_time : ℚ) (idx : ℕ)
    (pq : List (ℚ × ℕ)) : Option (SimState × List ℚ × List (ℚ × ℕ)) :=
  let global_time := min next_time newton.dt
  let dt := global_time - time.getD idx 0
  let new_accel := total_force_extrapolate sq idx state cfg time global_time
  let prev_pos := state.pos.getD idx 0
  let new_pos := prev_pos + dt • state.vel.getD idx 0
    + (dt ^ 2 / 2) • state.accel.getD idx 0
  match state.query.replace_point idx prev_pos new_pos with
  | none => none
  | some q' =>
    let st1 := { state with pos := state.pos.set idx new_pos, query := q' }
    let new_vel := st1.vel.getD idx 0 + dt • st1.vel.getD idx 0
      + (dt / 2) • (st1.accel.getD idx 0 + new_accel)
    let st2 := { st1 with
      vel := st1.vel.set idx new_vel
      accel := st1.accel.set idx new_accel }
    let time' := time.set idx global_time
    let next_dt := calculate_delta_time sq st2 time' idx global_time newton
    let pq' := if global_time < newton.dt
      then pq ++ [(global_time + next_dt, idx)] else pq
    some (st2, time', pq')

/-- The event loop of `newton_step_variable_dt`, with explicit fuel: pop the
minimum-time entry, integrate that particle, patch the index, and re-push it
while it has not reached the frame boundary. -/
def varLoop (sq : ℚ → ℚ) (cfg : SimConfig) (newton : NewtonVariableConfig) :
    ℕ → SimState → List ℚ → List (ℚ × ℕ) → LoopRes
  | 0, state, time, pq =>
    match popMin pq with
    | none => .done state time
    | some _ => .fuelOut
  | fuel + 1, state, time, pq =>
    match popMin pq with
    | none => .done state time
    | some ((next_time, idx), pq') =>
      match varStep sq cfg newton state time next_time idx pq' with
      | none => .panicked
      | some (st2, time', pq'') => varLoop sq cfg newton fuel st2 time' pq''

/-- Proof device (not from the source): the scheduling potential of a queue
entry with scheduled time `t` — an upper bound on how many more pops its
particle can cause before passing the frame boundary. -/
def potFn (newton : NewtonVariableConfig) (t : ℚ) : ℕ :=
  (⌈(newton.dt - min t newton.dt) / newton.min_dt⌉).toNat + 1

/-- Proof device (not from the source): the total scheduling potential of
the event queue, a strictly decreasing measure of the loop. -/
def queueMeasure (newton : NewtonVariableConfig) (pq : List (ℚ × ℕ)) : ℕ :=
  (pq.map (fun e => potFn newton e.1)).sum

/-- `newton_step_variable_dt` from `newton.rs`: initialise the per-particle
times and the priority queue, run the event loop, then apply the global
velocity damping. -/
def newton_step_variable_dt (sq : ℚ → ℚ) (fuel : ℕ) (state : SimState)
    (cfg : SimConfig) (newton : NewtonVariableConfig) : LoopRes :=
  let time : List ℚ := List.replicate state.pos.length 0
  let pq := (List.range state.pos.length).map fun i =>
    (calculate_delta_time sq state time i 0 newton, i)
  match varLoop sq cfg newton fuel state time pq with
  | .done st time' =>
    .done { st with vel := st.vel.map (fun v => (1 - newton.damping) • v) } time'
  | r => r

/-! ### The Monte-Carlo snapshot (`mcmc.rs`)

`mcmc.rs` is an earlier snapshot of the app working over `glam::Vec2`; its
`Sim` owns a `QueryAccelerator` over 2-D points whose source is not under
`src/`.  The 2-D accelerator below is modelled from the spec (§4.2),
specialised to two dimensions: quantize componentwise, 3×3 neighborhood,
same `replace_point` contract.  Randomness (`rng.gen_range`, the Gaussian
`Normal::sample`) is made explicit: the drawn particle index, the two noise
components and the uniform acceptance draw are parameters of `Sim.step`,
and `f32::exp` is an abstract parameter `ex`. -/

/-- Embedding of `glam::Vec2` with rational coordinates. -/
structure Vec2 where
  x : ℚ
  y : ℚ
deriving DecidableEq, Repr

namespace Vec2

instance : Zero Vec2 := ⟨⟨0, 0⟩⟩

instance : Sub Vec2 := ⟨fun a b => ⟨a.x - b.x, a.y - b.y⟩⟩

/-- `glam`: `Vec2::distance_squared`. -/
def distSq (a b : Vec2) : ℚ :=
  (a.x - b.x) * (a.x - b.x) + (a.y - b.y) * (a.y - b.y)

end Vec2

/-- 2-D grid-cell coordinate. -/
abbrev Cell2 := ℤ × ℤ

/-- Componentwise `floor(coord / radius)` for 2-D points. -/
def quantize2 (p : Vec2) (radius : ℚ) : Cell2 := (⌊p.x / radius⌋, ⌊p.y / radius⌋)

/-- The 3×3 cell neighborhood for the 2-D accelerator. -/
def neighborhood2 : List Cell2 :=
  ([-1, 0, 1] : List ℤ).flatMap fun dy =>
    ([-1, 0, 1] : List ℤ).map fun dx => ((dx, dy) : Cell2)

/-- Modelled from the spec (§4.2): the 2-D `QueryAccelerator` owned by
`mcmc.rs`'s `Sim` (its source file is not under `src/`). -/
structure Accel2 where
  cells : CellMap Cell2
  radius : ℚ
  radius_sq : ℚ
deriving DecidableEq, Repr

namespace Accel2

/-- Modelled from the spec (§4.2, `build`): bucket every point by its
quantized cell. -/
def buildGo (radius : ℚ) : List Vec2 → ℕ → CellMap Cell2 → CellMap Cell2
  | [], _, cs => cs
  | p :: rest, idx, cs =>
      buildGo radius rest (idx + 1) (cs.pushEntry (quantize2 p radius) idx)

/-- Modelled from the spec (§4.2): `build(points, radius)`. -/
def new (points : List Vec2) (radius : ℚ) : Accel2 :=
  { cells := buildGo radius points 0 []
    radius := radius
    radius_sq := radius * radius }

/-- Modelled from the spec (§4.2): `query_neighbors`, two-dimensional. -/
def query_neighbors (self : Accel2) (points : List Vec2) (query_idx : ℕ)
    (query_point : Vec2) : List ℕ :=
  let origin := quantize2 query_point self.radius
  (neighborhood2.map (fun diff =>
    match self.cells.getCell (origin.1 + diff.1, origin.2 + diff.2) with
    | none => []
    | some cell_indices =>
        cell_indices.filter fun idx =>
          idx ≠ query_idx ∧
            Vec2.distSq (points.getD idx 0) query_point ≤ self.radius_sq)).flatten

/-- Modelled from the spec (§4.2): `replace_point`, failing (`none`) when
`idx` is not recorded under the old position's cell. -/
def replace_point (self : Accel2) (idx : ℕ) (prev current : Vec2) :
    Option Accel2 :=
  match self.cells.getCell (quantize2 prev self.radius) with
  | none => none
  | some prev_bins =>
      if idx ∈ prev_bins then
        let removed := self.cells.updateCell (quantize2 prev self.radius)
          (prev_bins.erase idx)
        some { self with
          cells := removed.pushEntry (quantize2 current self.radius) idx }
      else none

end Accel2

/-- `LennardJones` potential coefficients (`mcmc.rs` gives its `impl`; the
struct fields `attract` and `repulse` are named by `Default for
LennardJones`). -/
structure LennardJones where
  attract : ℚ
  repulse : ℚ
deriving DecidableEq, Repr

/-- `LennardJones::eval` from `mcmc.rs`:
`4 * ((repulse / radius)^12 - (attract / radius)^6)`. -/
def LennardJones.eval (lj : LennardJones) (radius : ℚ) : ℚ :=
  4 * ((lj.repulse / radius) ^ 12 - (lj.attract / radius) ^ 6)

/-- One row of the `Ruleset` of `mcmc.rs` (struct not under `src/`): per
`energy_due_to`, a particle class has a list of `LennardJones` interactions
indexed by the neighbor's type.  Modelled from the spec's behaviour-matrix
shape (§3). -/
structure ParticleClass where
  interactions : List LennardJones
deriving Repr

/-- The `Ruleset` of `mcmc.rs` (struct not under `src/`): one class per
particle type.  Modelled from the spec's behaviour-matrix shape (§3). -/
structure Ruleset where
  particles : List ParticleClass
deriving Repr

/-- `State` from `mcmc.rs`: positions and types. -/
structure McState where
  positions : List Vec2
  types : List ℕ
deriving Repr

/-- `Sim` from `mcmc.rs`. -/
structure Sim where
  state : McState
  accel : Accel2
  rules : Ruleset
  temperature : ℚ
  walk_sigma : ℚ
deriving Repr

/-- `Sim::energy_due_to(idx, pos)` from `mcmc.rs`: sum the Lennard-Jones
potential over the neighbors of the hypothetical position `pos`, queried
from the (unmoved) accelerator, using `idx`'s own type row. -/
def Sim.energy_due_to (sq : ℚ → ℚ) (sim : Sim) (idx : ℕ) (pos : Vec2) : ℚ :=
  let my_ruleset := sim.rules.particles.getD (sim.state.types.getD idx 0)
    ⟨[]⟩
  (sim.accel.query_neighbors sim.state.positions idx pos).foldl
    (fun energy neighbor =>
      let distance := sq (Vec2.distSq (sim.state.positions.getD neighbor 0) pos)
      let potential := my_ruleset.interactions.getD
        (sim.state.types.getD neighbor 0) ⟨0, 0⟩
      energy + potential.eval distance)
    0

/-- `Sim::step` from `mcmc.rs`, with the random draws made explicit: `idx`
is the uniformly drawn particle, `noise` the two Gaussian components added
to its position, and `u` the uniform draw from `[0, 1]` that the acceptance
probability is compared against.  `none` models the `replace_point` panic. -/
def Sim.step (sq ex : ℚ → ℚ) (sim : Sim) (idx : ℕ) (noise : ℚ × ℚ) (u : ℚ) :
    Option Sim :=
  let original := sim.state.positions.getD idx 0
  let candidate : Vec2 := ⟨original.x + noise.1, original.y + noise.2⟩
  let old_energy := sim.energy_due_to sq idx original
  let new_energy := sim.energy_due_to sq idx candidate
  let delta_e := new_energy - old_energy
  let probability := ex (-delta_e / sim.temperature)
  if probability > u then
    match sim.accel.replace_point idx original candidate with
    | none => none
    | some accel' =>
      some { sim with
        state := { sim.state with
          positions := sim.state.positions.set idx candidate }
        accel := accel' }
  else some sim

/-! ### The client frame driver (`client.rs`) -/

/-- The simulation-relevant part of `ClientState::update` from `client.rs`:
every frame, the accelerator field is rebuilt from scratch from the current
positions at the configured maximum interaction radius, and then (unless
paused) the chosen integrator runs; the `Integrator::Newton` arm is
`newton_step`.  (Rendering and message I/O are out of scope.) -/
def clientUpdate (sq : ℚ → ℚ) (st : SimState) (cfg : SimConfig)
    (newton : NewtonConfig) (pause : Bool) : SimState :=
  let st := { st with
    query := QueryAccelerator.new st.pos cfg.max_interaction_radius }
  if pause then st else newton_step sq st cfg newton

/-! ### Lemmas.  Everything from here on is a theorem about the
definitions above. -/

namespace Vec3

@[simp] theorem zero_x : (0 : Vec3).x = 0 := rfl

@[simp] theorem zero_y : (0 : Vec3).y = 0 := rfl

@[simp] theorem zero_z : (0 : Vec3).z = 0 := rfl

@[simp] theorem add_x (a b : Vec3) : (a + b).x = a.x + b.x := rfl

@[simp] theorem add_y (a b : Vec3) : (a + b).y = a.y + b.y := rfl

@[simp] theorem add_z (a b : Vec3) : (a + b).z = a.z + b.z := rfl

@[simp] theorem sub_x (a b : Vec3) : (a - b).x = a.x - b.x := rfl

@[simp] theorem sub_y (a b : Vec3) : (a - b).y = a.y - b.y := rfl

@[simp] theorem sub_z (a b : Vec3) : (a - b).z = a.z - b.z := rfl

@[simp] theorem smul_x (c : ℚ) (v : Vec3) : (c • v).x = c * v.x := rfl

@[simp] theorem smul_y (c : ℚ) (v : Vec3) : (c • v).y = c * v.y := rfl

@[simp] theorem smul_z (c : ℚ) (v : Vec3) : (c • v).z = c * v.z := rfl

@[simp] theorem mk_add_mk (a b c d e f : ℚ) :
    ((⟨a, b, c⟩ : Vec3) + ⟨d, e, f⟩) = ⟨a + d, b + e, c + f⟩ := rfl

@[simp] theorem mk_sub_mk (a b c d e f : ℚ) :
    ((⟨a, b, c⟩ : Vec3) - ⟨d, e, f⟩) = ⟨a - d, b - e, c - f⟩ := rfl

@[simp] theorem smul_mk (q a b c : ℚ) :
    (q • (⟨a, b, c⟩ : Vec3)) = ⟨q * a, q * b, q * c⟩ := rfl

@[simp] theorem zero_def : (0 : Vec3) = ⟨0, 0, 0⟩ := rfl

end Vec3

/-! ### Basic lemmas about the cell map -/

namespace CellMap

variable {κ : Type} [DecidableEq κ]

@[simp] theorem occurrences_nil (j : ℕ) : occurrences ([] : CellMap κ) j = 0 :=
  rfl

theorem occurrences_cons (e : κ × List ℕ) (m : CellMap κ) (j : ℕ) :
    occurrences (e :: m) j = e.2.count j + occurrences m j := rfl

theorem getCell_mem {m : CellMap κ} {k : κ} {l : List ℕ}
    (h : m.getCell k = some l) : (k, l) ∈ m := by
  induction m with
  | nil => simp [getCell] at h
  | cons e rest ih =>
    obtain ⟨k', l'⟩ := e
    by_cases hk : k' = k
    · subst hk
      simp [getCell] at h
      simp [h]
    · simp only [getCell, if_neg hk] at h
      exact List.mem_cons_of_mem _ (ih h)

theorem mem_getCell {m : CellMap κ} (hnd : (keys m).Nodup) {k : κ}
    {l : List ℕ} (h : (k, l) ∈ m) : m.getCell k = some l := by
  induction m with
  | nil => simp at h
  | cons e rest ih =>
    obtain ⟨k', l'⟩ := e
    simp only [keys, List.map_cons, List.nodup_cons] at hnd
    rcases List.mem_cons.1 h with h | h
    · obtain ⟨rfl, rfl⟩ := Prod.mk.injEq .. ▸ h
      simp [getCell]
    · have hk : k' ≠ k := by
        rintro rfl
        exact hnd.1 (List.mem_map.2 ⟨(k', l), h, rfl⟩)
      simp only [getCell, if_neg hk]
      exact ih hnd.2 h

theorem keys_updateCell (m : CellMap κ) (k : κ) (nl : List ℕ) :
    keys (updateCell m k nl) = keys m := by
  induction m with
  | nil => rfl
  | cons e rest ih =>
    obtain ⟨k', l'⟩ := e
    by_cases hk : k' = k <;> simp [updateCell, hk, keys] at ih ⊢ <;> exact ih

theorem keys_pushEntry (m : CellMap κ) (k : κ) (i : ℕ) :
    keys (pushEntry m k i) = if k ∈ keys m then keys m else keys m ++ [k] := by
  induction m with
  | nil => simp [pushEntry, keys]
  | cons e rest ih =>
    obtain ⟨k', l'⟩ := e
    by_cases hk : k' = k
    · subst hk
      simp [pushEntry, keys]
    · simp only [pushEntry, if_neg hk, keys, List.map_cons] at ih ⊢
      rw [ih]
      have : k ∈ k' :: List.map Prod.fst rest ↔ k ∈ List.map Prod.fst rest := by
        simp [List.mem_cons, (Ne.symm hk)]
      by_cases hmem : k ∈ List.map Prod.fst rest <;>
        simp [hmem, this]

theorem nodup_keys_pushEntry {m : CellMap κ} (hnd : (keys m).Nodup) (k : κ)
    (i : ℕ) : (keys (pushEntry m k i)).Nodup := by
  rw [keys_pushEntry]
  by_cases hmem : k ∈ keys m
  · simpa [hmem]
  · simpa [hmem, List.nodup_append] using hnd

theorem occurrences_pushEntry (m : CellMap κ) (k : κ) (i j : ℕ) :
    occurrences (pushEntry m k i) j
      = occurrences m j + if i = j then 1 else 0 := by
  induction m with
  | nil =>
    by_cases hij : i = j <;>
      simp [pushEntry, occurrences, List.count_cons, hij]
  | cons e rest ih =>
    obtain ⟨k', l'⟩ := e
    by_cases hk : k' = k
    · subst hk
      by_cases hij : i = j <;>
        simp [pushEntry, occurrences_cons, List.count_append, List.count_cons,
          hij] <;> omega
    · simp only [pushEntry, if_neg hk, occurrences_cons, ih]
      omega

theorem occurrences_updateCell {m : CellMap κ} {k : κ} {l : List ℕ}
    (h : m.getCell k = some l) (nl : List ℕ) (j : ℕ) :
    occurrences (updateCell m k nl) j + l.count j
      = occurrences m j + nl.count j := by
  induction m with
  | nil => simp [getCell] at h
  | cons e rest ih =>
    obtain ⟨k', l'⟩ := e
    by_cases hk : k' = k
    · subst hk
      simp only [getCell, if_true, eq_self_iff_true, Option.some.injEq] at h
      subst h
      simp only [updateCell, if_true, eq_self_iff_true, occurrences_cons]
      omega
    · simp only [getCell, if_neg hk] at h
      simp only [updateCell, if_neg hk, occurrences_cons]
      have := ih h
      omega

theorem mem_updateCell {m : CellMap κ} {k : κ} {nl : List ℕ}
    {e : κ × List ℕ} (h : e ∈ updateCell m k nl) : e ∈ m ∨ e = (k, nl) := by
  induction m with
  | nil => simp [updateCell] at h
  | cons e' rest ih =>
    obtain ⟨k', l'⟩ := e'
    by_cases hk : k' = k
    · subst hk
      simp only [updateCell, if_pos rfl] at h
      rcases List.mem_cons.1 h with h | h
      · exact Or.inr h
      · exact Or.inl (List.mem_cons_of_mem _ h)
    · simp only [updateCell, if_neg hk] at h
      rcases List.mem_cons.1 h with h | h
      · exact Or.inl (h ▸ List.mem_cons_self _ _)
      · rcases ih h with h | h
        · exact Or.inl (List.mem_cons_of_mem _ h)
        · exact Or.inr h

theorem mem_pushEntry {m : CellMap κ} {k : κ} {i : ℕ} {e : κ × List ℕ}
    (h : e ∈ pushEntry m k i) :
    e ∈ m ∨ (∃ l, (k, l) ∈ m ∧ e = (k, l ++ [i])) ∨ e = (k, [i]) := by
  induction m with
  | nil => simp [pushEntry] at h; simp [h]
  | cons e' rest ih =>
    obtain ⟨k', l'⟩ := e'
    by_cases hk : k' = k
    · subst hk
      simp only [pushEntry, if_pos rfl] at h
      rcases List.mem_cons.1 h with h | h
      · exact Or.inr (Or.inl ⟨l', List.mem_cons_self _ _, h⟩)
      · exact Or.inl (List.mem_cons_of_mem _ h)
    · simp only [pushEntry, if_neg hk] at h
      rcases List.mem_cons.1 h with h | h
      · exact Or.inl (h ▸ List.mem_cons_self _ _)
      · rcases ih h with h | ⟨l, hl, he⟩ | h
        · exact Or.inl (List.mem_cons_of_mem _ h)
        · exact Or.inr (Or.inl ⟨l, List.mem_cons_of_mem _ hl, he⟩)
        · exact Or.inr (Or.inr h)

theorem count_le_occurrences {m : CellMap κ} {e : κ × List ℕ} (h : e ∈ m)
    (j : ℕ) : e.2.count j ≤ occurrences m j := by
  induction m with
  | nil => simp at h
  | cons e' rest ih =>
    rw [occurrences_cons]
    rcases List.mem_cons.1 h with h | h
    · subst h; omega
    · have := ih h; omega

theorem count_two_le_occurrences {m : CellMap κ} {e e' : κ × List ℕ}
    (h : e ∈ m) (h' : e' ∈ m) (hne : e.1 ≠ e'.1) (j : ℕ) :
    e.2.count j + e'.2.count j ≤ occurrences m j := by
  induction m with
  | nil => simp at h
  | cons e0 rest ih =>
    rcases List.mem_cons.1 h with rfl | h <;>
      rcases List.mem_cons.1 h' with h' | h'
    · exact absurd (h' ▸ rfl) hne
    · have h2 := count_le_occurrences h' j
      rw [occurrences_cons]
      omega
    · have h2 := count_le_occurrences h j
      rw [occurrences_cons, h']
      omega
    · have h2 := ih h h'
      rw [occurrences_cons]
      omega

theorem exists_mem_of_occurrences_pos {m : CellMap κ} {j : ℕ}
    (h : 0 < occurrences m j) : ∃ e ∈ m, j ∈ e.2 := by
  induction m with
  | nil => simp [occurrences] at h
  | cons e rest ih =>
    rw [occurrences_cons] at h
    by_cases he : j ∈ e.2
    · exact ⟨e, List.mem_cons_self _ _, he⟩
    · have : e.2.count j = 0 := List.count_eq_zero.2 he
      obtain ⟨e', he', hj⟩ := ih (by omega)
      exact ⟨e', List.mem_cons_of_mem _ he', hj⟩

theorem consistentWith_nil (key : ℕ → κ) :
    ConsistentWith ([] : CellMap κ) key 0 := by
  refine ⟨List.nodup_nil, fun j => rfl, fun e he => absurd he (by simp)⟩

theorem ConsistentWith.push {m : CellMap κ} {key : ℕ → κ} {N : ℕ}
    (h : ConsistentWith m key N) :
    ConsistentWith (pushEntry m (key N) N) key (N + 1) := by
  obtain ⟨hnd, hocc, hkey⟩ := h
  refine ⟨nodup_keys_pushEntry hnd _ _, fun j => ?_, fun e he j hj => ?_⟩
  · rw [occurrences_pushEntry, hocc j]
    by_cases hj : j = N
    · subst hj
      simp
    · rcases Nat.lt_or_ge j N with hlt | hge

      · simp [hlt, Nat.lt_succ_of_lt hlt, Ne.symm hj]
      · have h1 : ¬j < N := by omega
        have h2 : ¬j < N + 1 := by omega
        simp [h1, h2, Ne.symm hj]
  · rcases mem_pushEntry he with he | ⟨l, hl, rfl⟩ | rfl
    · exact hkey e he j hj
    · rcases List.mem_append.1 hj with hj | hj
      · exact hkey (key N, l) hl j hj
      · simp only [List.mem_singleton] at hj
        subst hj
        rfl
    · simp only [List.mem_singleton] at hj
      subst hj
      rfl

theorem ConsistentWith.replace {m : CellMap κ} {key : ℕ → κ} {N idx : ℕ}
    (h : ConsistentWith m key N) (hidx : idx < N) (k' : κ) :
    ∃ l, m.getCell (key idx) = some l ∧ idx ∈ l ∧
      ConsistentWith ((m.updateCell (key idx) (l.erase idx)).pushEntry k' idx)
        (fun j => if j = idx then k' else key j) N := by
  obtain ⟨hnd, hocc, hkey⟩ := h
  have hpos : 0 < occurrences m idx := by rw [hocc]; simp [hidx]
  obtain ⟨e, he, hin⟩ := exists_mem_of_occurrences_pos hpos
  have hek : e.1 = key idx := hkey e he idx hin
  have hel : (key idx, e.2) ∈ m := by
    rw [← hek]
    exact he
  have hget : m.getCell (key idx) = some e.2 := mem_getCell hnd hel
  refine ⟨e.2, hget, hin, ?_⟩
  generalize hl2 : e.2 = l at hin hel hget ⊢
  have hcount1 : l.count idx = 1 := by
    have h1 : 1 ≤ l.count idx := List.one_le_count_iff.2 hin
    have h2 : l.count idx ≤ occurrences m idx := count_le_occurrences hel idx
    rw [hocc idx] at h2
    simp [hidx] at h2
    omega
  have huocc : ∀ j, occurrences (m.updateCell (key idx) (l.erase idx)) j
      = if j = idx then 0 else occurrences m j := by
    intro j
    have hthis := occurrences_updateCell hget (l.erase idx) j
    have hocc1 : occurrences m idx = 1 := by rw [hocc idx]; simp [hidx]
    by_cases hj : j = idx
    · subst hj
      rw [List.count_erase_self] at hthis
      rw [if_pos rfl]
      omega
    · rw [List.count_erase_of_ne hj] at hthis
      rw [if_neg hj]
      omega
  have hukey : ∀ e' ∈ m.updateCell (key idx) (l.erase idx), ∀ j ∈ e'.2,
      j ≠ idx ∧ e'.1 = key j := by
    intro e' he' j hj
    have hjidx : j ≠ idx := by
      intro hji
      subst hji
      have h1 : 1 ≤ e'.2.count j := List.one_le_count_iff.2 hj
      have h2 := count_le_occurrences he' j
      rw [huocc j] at h2
      simp at h2
      omega
    refine ⟨hjidx, ?_⟩
    rcases mem_updateCell he' with he' | rfl
    · exact hkey e' he' j hj
    · have hjl : j ∈ l := (List.erase_sublist idx l).mem hj
      exact hkey (key idx, l) hel j hjl
  have hund : (keys (m.updateCell (key idx) (l.erase idx))).Nodup := by
    rw [keys_updateCell]
    exact hnd
  refine ⟨nodup_keys_pushEntry hund _ _, fun j => ?_, fun e' he' j hj => ?_⟩
  · rw [occurrences_pushEntry, huocc j]
    by_cases hj : j = idx
    · subst hj
      simp [hidx]
    · simp [Ne.symm hj, hj, hocc j]
  · rcases mem_pushEntry he' with he' | ⟨l', hl', rfl⟩ | rfl
    · obtain ⟨hji, hkj⟩ := hukey e' he' j hj
      simp [hji, hkj]
    · rcases List.mem_append.1 hj with hj | hj
      · obtain ⟨hji, hkj⟩ := hukey (k', l') hl' j hj
        simp [hji, ← hkj]
      · simp only [List.mem_singleton] at hj
        subst hj
        simp
    · simp only [List.mem_singleton] at hj
      subst hj
      simp

theorem mem_lt_of_consistentWith {m : CellMap κ} {key : ℕ → κ} {N : ℕ}
    (h : ConsistentWith m key N) {e : κ × List ℕ} (he : e ∈ m) {j : ℕ}
    (hj : j ∈ e.2) : j < N := by
  have h1 : 1 ≤ e.2.count j := List.one_le_count_iff.2 hj
  have h2 := count_le_occurrences he j
  rw [h.2.1 j] at h2
  by_contra hlt
  simp [hlt] at h2
  omega

theorem ConsistentWith.of_key_eq {m : CellMap κ} {key key' : ℕ → κ} {N : ℕ}
    (h : ConsistentWith m key N) (hk : ∀ j < N, key' j = key j) :
    ConsistentWith m key' N := by
  refine ⟨h.1, h.2.1, fun e he j hj => ?_⟩
  rw [hk j (mem_lt_of_consistentWith h he hj)]
  exact h.2.2 e he j hj

end CellMap

/-- `List.getD` after `List.set` at the written position. -/
theorem getD_set_self {α : Type} {l : List α} {i : ℕ} (h : i < l.length)
    (v d : α) : (l.set i v).getD i d = v := by
  rw [List.getD_eq_getElem?_getD, List.getElem?_set_self h]
  rfl

/-- `List.getD` after `List.set` at another position. -/
theorem getD_set_ne {α : Type} {l : List α} {i j : ℕ} (h : i ≠ j)
    (v d : α) : (l.set i v).getD j d = l.getD j d := by
  rw [List.getD_eq_getElem?_getD, List.getD_eq_getElem?_getD,
    List.getElem?_set_ne h]

namespace QueryAccelerator

theorem buildGo_consistent (r : ℚ) (key : ℕ → Cell3) :
    ∀ (rest : List Vec3) (idx : ℕ) (cs : CellMap Cell3),
      CellMap.ConsistentWith cs key idx →
      (∀ n < rest.length, key (idx + n) = quantize (rest.getD n 0) r) →
      CellMap.ConsistentWith (buildGo r rest idx cs) key (idx + rest.length) := by
  intro rest
  induction rest with
  | nil => intro idx cs h _; simpa using h
  | cons p rest' ih =>
    intro idx cs h hkey
    have hk0 : key idx = quantize p r := by
      simpa using hkey 0 (by simp)
    have hpush : CellMap.ConsistentWith (cs.pushEntry (quantize p r) idx) key
        (idx + 1) := by
      rw [← hk0]
      exact h.push
    have hrest : ∀ n < rest'.length,
        key (idx + 1 + n) = quantize (rest'.getD n 0) r := by
      intro n hn
      have := hkey (n + 1) (by simpa using Nat.succ_lt_succ hn)
      simpa [Nat.add_assoc, Nat.add_comm 1 n] using this
    have := ih (idx + 1) (cs.pushEntry (quantize p r) idx) hpush hrest
    simpa [buildGo, Nat.add_assoc, Nat.add_comm 1 rest'.length] using this

/-- `QueryAccelerator::new` establishes the Spatial-Index invariant. -/
theorem new_consistent (points : List Vec3) (r : ℚ) :
    (new points r).Consistent points := by
  have h := buildGo_consistent r (keyOf points r) points 0 []
    (CellMap.consistentWith_nil _) (fun n _ => by simp [keyOf])
  simpa [Consistent, new] using h

/-- If the invariant holds and `prev` is the recorded position of a live
index, `replace_point` succeeds and re-establishes the invariant for the
updated position list. -/
theorem replace_consistent {a : QueryAccelerator} {pos : List Vec3}
    {idx : ℕ} (h : a.Consistent pos) (hidx : idx < pos.length)
    (current : Vec3) :
    ∃ a', a.replace_point idx (pos.getD idx 0) current = some a' ∧
      a'.Consistent (pos.set idx current) ∧ a'.radius = a.radius ∧
      a'.radius_sq = a.radius_sq := by
  obtain ⟨l, hget, hin, hcons⟩ :=
    @CellMap.ConsistentWith.replace Cell3 _ a.cells (keyOf pos a.radius)
      pos.length idx h hidx
      (quantize current a.radius)
  have hq : quantize (pos.getD idx 0) a.radius = keyOf pos a.radius idx := rfl
  refine ⟨{ a with cells := (a.cells.updateCell (keyOf pos a.radius idx)
    (l.erase idx)).pushEntry (quantize current a.radius) idx }, ?_, ?_, rfl, rfl⟩
  · rw [replace_point, hq, hget]
    simp [hin]
  · rw [Consistent, List.length_set]
    refine CellMap.ConsistentWith.of_key_eq hcons ?_
    intro j hj
    by_cases hji : j = idx
    · subst hji
      rw [keyOf, getD_set_self hj]
      simp
    · rw [keyOf, getD_set_ne (Ne.symm hji)]
      simp [keyOf, hji]

theorem applyMoves_consistent :
    ∀ (moves : List (ℕ × Vec3)) (a : QueryAccelerator) (pos : List Vec3),
      a.Consistent pos → (∀ m ∈ moves, m.1 < pos.length) →
      ∃ a' pos', applyMoves a pos moves = some (a', pos') ∧
        a'.Consistent pos' ∧ a'.radius = a.radius ∧
        pos'.length = pos.length := by
  intro moves
  induction moves with
  | nil =>
    intro a pos h _
    exact ⟨a, pos, rfl, h, rfl, rfl⟩
  | cons m ms ih =>
    intro a pos h hm
    obtain ⟨i, p⟩ := m
    have hi : i < pos.length := hm (i, p) (List.mem_cons_self _ _)
    obtain ⟨a', hrep, hcons', hrad, hradsq⟩ := replace_consistent h hi p
    obtain ⟨a'', pos'', happ, hc, hr, hl⟩ := ih a' (pos.set i p) hcons'
      (fun m hmem => by
        rw [List.length_set]
        exact hm m (List.mem_cons_of_mem _ hmem))
    refine ⟨a'', pos'', ?_, hc, hrad ▸ hr, by simpa using hl⟩
    rw [applyMoves, hrep]
    exact happ

/-- Injectivity of the cell-offset addition in its second argument. -/
theorem cellAdd_right_inj {o d d' : Cell3} (h : cellAdd o d = cellAdd o d') :
    d = d' := by
  obtain ⟨a, b, c⟩ := o
  obtain ⟨x, y, z⟩ := d
  obtain ⟨x', y', z'⟩ := d'
  simp only [cellAdd, Prod.mk.injEq] at h ⊢
  omega

set_option maxHeartbeats 1600000 in
/-- Fidelity of `neighborhood`: the flattened-out offset list equals the
output of the `combos(-1, 1, 1)` counter loop of the source, in the same
order (first coordinate varies fastest). -/
theorem neighborhood_eq_combos :
    combosGo (-1) 1 1 27 (-1, -1, -1) = neighborhood := by decide

set_option maxHeartbeats 1600000 in
/-- The 27-cell neighborhood contains every offset whose components all lie
in `{-1, 0, 1}`. -/
theorem mem_neighborhood {x y z : ℤ} (hx : x = -1 ∨ x = 0 ∨ x = 1)
    (hy : y = -1 ∨ y = 0 ∨ y = 1) (hz : z = -1 ∨ z = 0 ∨ z = 1) :
    ((x, y, z) : Cell3) ∈ neighborhood := by
  rcases hx with rfl | rfl | rfl <;> rcases hy with rfl | rfl | rfl <;>
    rcases hz with rfl | rfl | rfl <;> decide

/-- If two scalars are within `r` of each other, their cells (floors of the
scaled values) differ by at most one. -/
theorem floor_div_close {a b r : ℚ} (hr : 0 < r) (h : |a - b| ≤ r) :
    ⌊b / r⌋ - 1 ≤ ⌊a / r⌋ ∧ ⌊a / r⌋ ≤ ⌊b / r⌋ + 1 := by
  obtain ⟨h1, h2⟩ := abs_le.1 h
  have hrr : r / r = 1 := div_self (ne_of_gt hr)
  constructor
  · have hle : b / r - 1 ≤ a / r := by
      rw [← hrr, ← sub_div]
      exact (div_le_div_iff_of_pos_right hr).2 (by linarith)
    have hf := Int.floor_le_floor hle
    rwa [show b / r - 1 = b / r - ((1 : ℤ) : ℚ) by norm_num,
      Int.floor_sub_int] at hf
  · have hle : a / r ≤ b / r + 1 := by
      rw [← hrr, ← add_div]
      exact (div_le_div_iff_of_pos_right hr).2 (by linarith)
    have hf := Int.floor_le_floor hle
    rwa [show b / r + 1 = b / r + ((1 : ℤ) : ℚ) by norm_num,
      Int.floor_add_int] at hf

/-- A squared distance within `r²` bounds every coordinate difference by
`r` in absolute value. -/
theorem comp_abs_le_of_distSq_le {a b : Vec3} {r : ℚ} (hr : 0 ≤ r)
    (h : Vec3.distSq a b ≤ r * r) :
    |a.x - b.x| ≤ r ∧ |a.y - b.y| ≤ r ∧ |a.z - b.z| ≤ r := by
  rw [Vec3.distSq, Vec3.lengthSq] at h
  simp only [Vec3.sub_x, Vec3.sub_y, Vec3.sub_z] at h
  refine ⟨abs_le.2 ⟨?_, ?_⟩, abs_le.2 ⟨?_, ?_⟩, abs_le.2 ⟨?_, ?_⟩⟩
  · nlinarith [mul_self_nonneg (a.x - b.x + r), mul_self_nonneg (a.y - b.y),
      mul_self_nonneg (a.z - b.z)]
  · nlinarith [mul_self_nonneg (a.x - b.x - r), mul_self_nonneg (a.y - b.y),
      mul_self_nonneg (a.z - b.z)]
  · nlinarith [mul_self_nonneg (a.y - b.y + r), mul_self_nonneg (a.x - b.x),
      mul_self_nonneg (a.z - b.z)]
  · nlinarith [mul_self_nonneg (a.y - b.y - r), mul_self_nonneg (a.x - b.x),
      mul_self_nonneg (a.z - b.z)]
  · nlinarith [mul_self_nonneg (a.z - b.z + r), mul_self_nonneg (a.x - b.x),
      mul_self_nonneg (a.y - b.y)]
  · nlinarith [mul_self_nonneg (a.z - b.z - r), mul_self_nonneg (a.x - b.x),
      mul_self_nonneg (a.y - b.y)]

@[simp] theorem new_radius (points : List Vec3) (r : ℚ) :
    (new points r).radius = r := rfl

@[simp] theorem new_radius_sq (points : List Vec3) (r : ℚ) :
    (new points r).radius_sq = r * r := rfl

/-- Unfolding of `query_neighbors` into the existence of a visited cell
whose bucket contains the index and whose filter admits it. -/
theorem mem_query_neighbors_iff {a : QueryAccelerator} {points : List Vec3}
    {q : ℕ} {p : Vec3} {j : ℕ} :
    j ∈ a.query_neighbors points q p ↔
      ∃ d ∈ neighborhood, ∃ l,
        a.cells.getCell (cellAdd (quantize p a.radius) d) = some l ∧ j ∈ l ∧
          j ≠ q ∧ Vec3.distSq (points.getD j 0) p ≤ a.radius_sq := by
  simp only [query_neighbors, List.mem_flatten, List.mem_map]
  constructor
  · rintro ⟨lst, ⟨d, hd, rfl⟩, hj⟩
    refine ⟨d, hd, ?_⟩
    rcases hcell : a.cells.getCell (cellAdd (quantize p a.radius) d)
      with _ | l
    · rw [hcell] at hj
      simp at hj
    · rw [hcell] at hj
      simp only [List.mem_filter, decide_eq_true_eq] at hj
      exact ⟨l, rfl, hj.1, hj.2⟩
  · rintro ⟨d, hd, l, hcell, hjl, hjq, hdist⟩
    refine ⟨_, ⟨d, hd, rfl⟩, ?_⟩
    rw [hcell]
    simp only [List.mem_filter, decide_eq_true_eq]
    exact ⟨hjl, hjq, hdist⟩

/-- Exactness of `query_neighbors` on a freshly built accelerator: sound
(soundness of the filter and the index), complete (the 27-cell neighborhood
misses no true neighbor when `0 < r`), and duplicate-free. -/
theorem query_neighbors_exact (points : List Vec3) (r : ℚ) (q : ℕ)
    (hr : 0 < r) :
    ((new points r).query_neighbors points q (points.getD q 0)).Nodup ∧
      ∀ j, j ∈ (new points r).query_neighbors points q (points.getD q 0) ↔
        j < points.length ∧ j ≠ q ∧
          Vec3.distSq (points.getD j 0) (points.getD q 0) ≤ r * r := by
  have hcons := new_consistent points r
  obtain ⟨hnd, hocc, hkey⟩ := hcons
  constructor
  · -- no duplicates
    rw [query_neighbors, List.nodup_flatten]
    constructor
    · intro lst hlst
      obtain ⟨d, hd, rfl⟩ := List.mem_map.1 hlst
      rcases hcell : (new points r).cells.getCell
          (cellAdd (quantize (points.getD q 0) (new points r).radius) d)
        with _ | l
      · simp [hcell]
      · simp only [hcell]
        refine List.Nodup.filter _ ?_
        refine List.nodup_iff_count_le_one.2 fun j => ?_
        have hle := CellMap.count_le_occurrences (CellMap.getCell_mem hcell) j
        rw [hocc j] at hle
        by_cases hj : j < points.length <;> simp [hj] at hle <;> omega
    · rw [List.pairwise_map]
      have hn : neighborhood.Nodup := by decide
      refine hn.imp ?_
      intro d d' hne j hj1 hj2
      rcases hcell : (new points r).cells.getCell
          (cellAdd (quantize (points.getD q 0) (new points r).radius) d)
        with _ | l
      · rw [hcell] at hj1
        simp at hj1
      rcases hcell' : (new points r).cells.getCell
          (cellAdd (quantize (points.getD q 0) (new points r).radius) d')
        with _ | l'
      · rw [hcell'] at hj2
        simp at hj2
      rw [hcell] at hj1
      rw [hcell'] at hj2
      have hjl : j ∈ l := (List.mem_filter.1 hj1).1
      have hjl' : j ∈ l' := (List.mem_filter.1 hj2).1
      have hkne : cellAdd (quantize (points.getD q 0) (new points r).radius) d
          ≠ cellAdd (quantize (points.getD q 0) (new points r).radius) d' :=
        fun hk => hne (cellAdd_right_inj hk)
      have h2 := CellMap.count_two_le_occurrences
        (CellMap.getCell_mem hcell) (CellMap.getCell_mem hcell') hkne j
      have hc1 : 1 ≤ l.count j := List.one_le_count_iff.2 hjl
      have hc2 : 1 ≤ l'.count j := List.one_le_count_iff.2 hjl'
      rw [hocc j] at h2
      by_cases hj : j < points.length <;> simp [hj] at h2 <;> omega
  · -- exact membership
    intro j
    rw [mem_query_neighbors_iff]
    constructor
    · rintro ⟨d, hd, l, hcell, hjl, hjq, hdist⟩
      have hel := CellMap.getCell_mem hcell
      have hjN := CellMap.mem_lt_of_consistentWith ⟨hnd, hocc, hkey⟩ hel hjl
      refine ⟨hjN, hjq, ?_⟩
      simpa using hdist
    · rintro ⟨hjN, hjq, hdist⟩
      have hpos : 0 < CellMap.occurrences (new points r).cells j := by
        rw [hocc j]
        simp [hjN]
      obtain ⟨e, he, hj2⟩ := CellMap.exists_mem_of_occurrences_pos hpos
      have hekey : e.1 = keyOf points r j := by
        have := hkey e he j hj2
        simpa using this
      obtain ⟨hx, hy, hz⟩ := comp_abs_le_of_distSq_le (le_of_lt hr) hdist
      have hfx := floor_div_close hr hx
      have hfy := floor_div_close hr hy
      have hfz := floor_div_close hr hz
      obtain ⟨⟨k1, k2, k3⟩, l⟩ := e
      simp only [keyOf, quantize, Prod.mk.injEq] at hekey
      obtain ⟨hk1, hk2, hk3⟩ := hekey
      refine ⟨(k1 - ⌊(points.getD q 0).x / r⌋, k2 - ⌊(points.getD q 0).y / r⌋,
          k3 - ⌊(points.getD q 0).z / r⌋),
        mem_neighborhood ?_ ?_ ?_, l, ?_, hj2, hjq, ?_⟩
      · subst hk1; omega
      · subst hk2; omega
      · subst hk3; omega
      · have haddk : cellAdd (quantize (points.getD q 0) (new points r).radius)
            (k1 - ⌊(points.getD q 0).x / r⌋, k2 - ⌊(points.getD q 0).y / r⌋,
              k3 - ⌊(points.getD q 0).z / r⌋)
            = (k1, k2, k3) := by
          simp only [cellAdd, quantize, new_radius, Prod.mk.injEq]
          omega
        rw [haddk]
        exact CellMap.mem_getCell hnd he
      · simpa using hdist

end QueryAccelerator

/-! ### The fixed-step integrator never touches the index -/

theorem foldl_newtonStepOne_query (sq : ℚ → ℚ) (cfg : SimConfig)
    (newton : NewtonConfig) :
    ∀ (l : List ℕ) (st : SimState),
      (l.foldl (newtonStepOne sq cfg newton) st).query = st.query := by
  intro l
  induction l with
  | nil => intro st; rfl
  | cons i t ih =>
    intro st
    rw [List.foldl_cons, ih]
    rfl

theorem newton_step_query (sq : ℚ → ℚ) (st : SimState) (cfg : SimConfig)
    (newton : NewtonConfig) :
    (newton_step sq st cfg newton).query = st.query :=
  foldl_newtonStepOne_query sq cfg newton _ st

/-! ### The Gauss–Seidel structure of the fixed-step loop -/

theorem newtonStepOne_vel_length (sq : ℚ → ℚ) (cfg : SimConfig)
    (newton : NewtonConfig) (st : SimState) (j : ℕ) :
    (newtonStepOne sq cfg newton st j).vel.length = st.vel.length := by
  simp [newtonStepOne]

theorem newtonStepOne_pos_length (sq : ℚ → ℚ) (cfg : SimConfig)
    (newton : NewtonConfig) (st : SimState) (j : ℕ) :
    (newtonStepOne sq cfg newton st j).pos.length = st.pos.length := by
  simp [newtonStepOne]

theorem foldl_newtonStepOne_lengths (sq : ℚ → ℚ) (cfg : SimConfig)
    (newton : NewtonConfig) :
    ∀ (l : List ℕ) (st : SimState),
      (l.foldl (newtonStepOne sq cfg newton) st).vel.length = st.vel.length ∧
        (l.foldl (newtonStepOne sq cfg newton) st).pos.length
          = st.pos.length := by
  intro l
  induction l with
  | nil => intro st; exact ⟨rfl, rfl⟩
  | cons i t ih =>
    intro st
    rw [List.foldl_cons]
    obtain ⟨h1, h2⟩ := ih (newtonStepOne sq cfg newton st i)
    rw [h1, h2, newtonStepOne_vel_length, newtonStepOne_pos_length]
    exact ⟨rfl, rfl⟩

theorem newtonPrefix_succ (sq : ℚ → ℚ) (cfg : SimConfig)
    (newton : NewtonConfig) (state : SimState) (i : ℕ) :
    newtonPrefix sq cfg newton state (i + 1)
      = newtonStepOne sq cfg newton (newtonPrefix sq cfg newton state i) i := by
  rw [newtonPrefix, newtonPrefix, List.range_succ, List.foldl_append,
    List.foldl_cons, List.foldl_nil]

/-- Particle `i`'s entries after a whole `newton_step`: the update formulas
of the claim, but evaluated on the live, partially-updated state
`newtonPrefix … i` (particles `0..i-1` already moved), not on a snapshot. -/
theorem newton_step_getD (sq : ℚ → ℚ) (cfg : SimConfig)
    (newton : NewtonConfig) (state : SimState) (i : ℕ)
    (hv : i < state.vel.length) (hp : i < state.pos.length) :
    (newton_step sq state cfg newton).vel.getD i 0
        = (1 - newton.damping) •
            ((newtonPrefix sq cfg newton state i).vel.getD i 0
              + newton.dt •
                total_force sq i (newtonPrefix sq cfg newton state i) cfg) ∧
      (newton_step sq state cfg newton).pos.getD i 0
        = (newtonPrefix sq cfg newton state i).pos.getD i 0
          + newton.dt • ((1 - newton.damping) •
              ((newtonPrefix sq cfg newton state i).vel.getD i 0
                + newton.dt •
                  total_force sq i (newtonPrefix sq cfg newton state i) cfg)) := by
  have haux : ∀ n, i < n →
      (((List.range n).foldl (newtonStepOne sq cfg newton) state).vel.getD i 0
          = (1 - newton.damping) •
              ((newtonPrefix sq cfg newton state i).vel.getD i 0
                + newton.dt •
                  total_force sq i (newtonPrefix sq cfg newton state i) cfg)) ∧
        ((List.range n).foldl (newtonStepOne sq cfg newton) state).pos.getD i 0
          = (newtonPrefix sq cfg newton state i).pos.getD i 0
            + newton.dt • ((1 - newton.damping) •
                ((newtonPrefix sq cfg newton state i).vel.getD i 0
                  + newton.dt •
                    total_force sq i
                      (newtonPrefix sq cfg newton state i) cfg)) := by
    intro n
    induction n with
    | zero => intro h; omega
    | succ n ih =>
      intro hin
      rw [List.range_succ, List.foldl_append, List.foldl_cons, List.foldl_nil]
      by_cases hni : n = i
      · subst hni
        have hveln : n < (newtonPrefix sq cfg newton state n).vel.length := by
          rw [newtonPrefix, (foldl_newtonStepOne_lengths sq cfg newton _ _).1]
          exact hv
        have hposn : n < (newtonPrefix sq cfg newton state n).pos.length := by
          rw [newtonPrefix, (foldl_newtonStepOne_lengths sq cfg newton _ _).2]
          exact hp
        constructor
        · show (newtonStepOne sq cfg newton
              ((List.range n).foldl (newtonStepOne sq cfg newton) state)
              n).vel.getD n 0 = _
          rw [show (List.range n).foldl (newtonStepOne sq cfg newton) state
              = newtonPrefix sq cfg newton state n from rfl]
          rw [newtonStepOne]
          simp only
          rw [getD_set_self hveln]
        · show (newtonStepOne sq cfg newton
              ((List.range n).foldl (newtonStepOne sq cfg newton) state)
              n).pos.getD n 0 = _
          rw [show (List.range n).foldl (newtonStepOne sq cfg newton) state
              = newtonPrefix sq cfg newton state n from rfl]
          rw [newtonStepOne]
          simp only
          rw [getD_set_self hposn]
      · have hii : i < n := by omega
        obtain ⟨h1, h2⟩ := ih hii
        rw [newtonStepOne]
        simp only
        rw [getD_set_ne hni, getD_set_ne hni, h1, h2]
        exact ⟨rfl, rfl⟩
  exact haux state.pos.length hp

/-! ### Termination of the event-driven loop -/

theorem popMin_eq_none {pq : List (ℚ × ℕ)} : popMin pq = none ↔ pq = [] := by
  cases pq with
  | nil => simp [popMin]
  | cons e rest =>
    simp only [popMin]
    rcases h : popMin rest with _ | m
    · simp
    · obtain ⟨m1, m2⟩ := m
      by_cases hle : e.1 ≤ m1.1 <;> simp [hle]

theorem popMin_perm {pq : List (ℚ × ℕ)} {m : ℚ × ℕ} {rest : List (ℚ × ℕ)}
    (h : popMin pq = some (m, rest)) : pq.Perm (m :: rest) := by
  induction pq generalizing m rest with
  | nil => simp [popMin] at h
  | cons e t ih =>
    simp only [popMin] at h
    rcases hp : popMin t with _ | m'
    · rw [hp] at h
      have ht : t = [] := popMin_eq_none.1 hp
      subst ht
      simp only [Option.some.injEq, Prod.mk.injEq] at h
      rw [h.1, ← h.2]
    · obtain ⟨m1, rest'⟩ := m'
      rw [hp] at h
      by_cases hle : e.1 ≤ m1.1
      · simp only [hle, if_true, Option.some.injEq, Prod.mk.injEq] at h
        rw [h.1, ← h.2]
      · simp only [hle, if_false, Option.some.injEq, Prod.mk.injEq] at h
        obtain ⟨h1, h2⟩ := h
        subst h1
        rw [← h2]
        have hp1 : (e :: t).Perm (e :: m1 :: rest') :=
          List.Perm.cons e (ih hp)
        have hp2 : (e :: m1 :: rest').Perm (m1 :: e :: rest') :=
          List.Perm.swap m1 e rest'
        exact hp1.trans hp2

theorem queueMeasure_perm {newton : NewtonVariableConfig}
    {pq pq' : List (ℚ × ℕ)} (h : pq.Perm pq') :
    queueMeasure newton pq = queueMeasure newton pq' :=
  (h.map _).sum_eq

theorem queueMeasure_append (newton : NewtonVariableConfig)
    (pq : List (ℚ × ℕ)) (e : ℚ × ℕ) :
    queueMeasure newton (pq ++ [e]) = queueMeasure newton pq
      + potFn newton e.1 := by
  simp [queueMeasure]

theorem queueMeasure_eq_zero {newton : NewtonVariableConfig}
    {pq : List (ℚ × ℕ)} (h : queueMeasure newton pq = 0) : pq = [] := by
  cases pq with
  | nil => rfl
  | cons e t =>
    rw [queueMeasure, List.map_cons, List.sum_cons, potFn] at h
    omega

theorem calculate_delta_time_ge (sq : ℚ → ℚ) (state : SimState)
    (time : List ℚ) (idx : ℕ) (global_time : ℚ)
    (newton : NewtonVariableConfig) :
    newton.min_dt ≤ calculate_delta_time sq state time idx global_time
      newton := by
  rw [calculate_delta_time]
  exact le_max_right _ _

theorem min_dt_pos {newton : NewtonVariableConfig} (hdt : 0 < newton.dt)
    (hms : 1 ≤ newton.max_steps) : 0 < newton.min_dt := by
  rw [NewtonVariableConfig.min_dt]
  apply div_pos hdt
  exact_mod_cast Nat.lt_of_lt_of_le Nat.zero_lt_one hms

theorem potFn_repush {newton : NewtonVariableConfig} (hdt : 0 < newton.dt)
    (hms : 1 ≤ newton.max_steps) {t nd : ℚ} (ht : t < newton.dt)
    (hnd : newton.min_dt ≤ nd) :
    potFn newton (min t newton.dt + nd) + 1 ≤ potFn newton t := by
  have hm : 0 < newton.min_dt := min_dt_pos hdt hms
  have hmin : min t newton.dt = t := min_eq_left (le_of_lt ht)
  have hold : (1 : ℤ) ≤ ⌈(newton.dt - min t newton.dt) / newton.min_dt⌉ := by
    rw [hmin]
    have hpos : 0 < (newton.dt - t) / newton.min_dt :=
      div_pos (by linarith) hm
    exact Int.ceil_pos.2 hpos
  rcases le_or_lt newton.dt (min t newton.dt + nd) with hge | hlt
  · -- the re-pushed time passes the frame boundary: potential 1
    have : min (min t newton.dt + nd) newton.dt = newton.dt :=
      min_eq_right hge
    rw [potFn, this, sub_self, zero_div, Int.ceil_zero, Int.toNat_zero,
      potFn]
    omega
  · have hmin2 : min (min t newton.dt + nd) newton.dt
        = min t newton.dt + nd := min_eq_left (le_of_lt hlt)
    have hstep : (newton.dt - (min t newton.dt + nd)) / newton.min_dt
        ≤ (newton.dt - min t newton.dt) / newton.min_dt - 1 := by
      rw [hmin]
      have h1 : newton.dt - (t + nd) ≤ newton.dt - t - newton.min_dt := by
        linarith
      calc (newton.dt - (t + nd)) / newton.min_dt
          ≤ (newton.dt - t - newton.min_dt) / newton.min_dt :=
            (div_le_div_iff_of_pos_right hm).2 h1
        _ = (newton.dt - t) / newton.min_dt - 1 := by
            rw [sub_div, div_self (ne_of_gt hm)]
    have hceil : ⌈(newton.dt - (min t newton.dt + nd)) / newton.min_dt⌉
        ≤ ⌈(newton.dt - min t newton.dt) / newton.min_dt⌉ - 1 := by
      have h2 := Int.ceil_le_ceil hstep
      rwa [show (newton.dt - min t newton.dt) / newton.min_dt - 1
          = (newton.dt - min t newton.dt) / newton.min_dt - ((1 : ℤ) : ℚ)
          by norm_num, Int.ceil_sub_int] at h2
    have hnew0 : (0 : ℤ) ≤ ⌈(newton.dt - (min t newton.dt + nd))
        / newton.min_dt⌉ := by
      apply Int.ceil_nonneg
      apply div_nonneg _ (le_of_lt hm)
      linarith
    rw [potFn, potFn, hmin2]
    omega

theorem potFn_le_max_steps {newton : NewtonVariableConfig}
    (hdt : 0 < newton.dt) (hms : 1 ≤ newton.max_steps) {t : ℚ}
    (ht : newton.min_dt ≤ t) : potFn newton t ≤ newton.max_steps := by
  have hm : 0 < newton.min_dt := min_dt_pos hdt hms
  have hmdt : newton.min_dt ≤ newton.dt := by
    rw [NewtonVariableConfig.min_dt]
    rw [div_le_iff (by exact_mod_cast Nat.lt_of_lt_of_le Nat.zero_lt_one hms)]
    have h1 : (1 : ℚ) ≤ (newton.max_steps : ℚ) := by exact_mod_cast hms
    nlinarith
  have hminb : newton.min_dt ≤ min t newton.dt := le_min ht hmdt
  have hstep : (newton.dt - min t newton.dt) / newton.min_dt
      ≤ (newton.max_steps : ℚ) - 1 := by
    have h1 : newton.dt - min t newton.dt ≤ newton.dt - newton.min_dt := by
      linarith
    have h2 : (newton.dt - newton.min_dt) / newton.min_dt
        = newton.dt / newton.min_dt - 1 := by
      rw [sub_div, div_self (ne_of_gt hm)]
    have h3 : newton.dt / newton.min_dt = (newton.max_steps : ℚ) := by
      rw [NewtonVariableConfig.min_dt, div_div_eq_mul_div,
        mul_comm newton.dt _, mul_div_assoc, div_self (ne_of_gt hdt),
        mul_one]
    calc (newton.dt - min t newton.dt) / newton.min_dt
        ≤ (newton.dt - newton.min_dt) / newton.min_dt :=
          (div_le_div_iff_of_pos_right hm).2 h1
      _ = (newton.max_steps : ℚ) - 1 := by rw [h2, h3]
  have hceil : ⌈(newton.dt - min t newton.dt) / newton.min_dt⌉
      ≤ (newton.max_steps : ℤ) - 1 := by
    have h4 := Int.ceil_le_ceil hstep
    rwa [show ((newton.max_steps : ℚ) - 1)
        = (((newton.max_steps : ℤ) - 1 : ℤ) : ℚ) by push_cast; ring,
      Int.ceil_intCast] at h4
  rw [potFn]
  omega

theorem queueMeasure_cons (newton : NewtonVariableConfig) (e : ℚ × ℕ)
    (pq : List (ℚ × ℕ)) :
    queueMeasure newton (e :: pq) = potFn newton e.1
      + queueMeasure newton pq := by
  simp [queueMeasure]

/-- One loop iteration: under the index invariant it does not panic, it
preserves the invariant, and it strictly decreases the queue measure
(amortised: the new queue plus one pop is at most the old queue plus the
popped entry's potential). -/
theorem varStep_measure (sq : ℚ → ℚ) (cfg : SimConfig)
    (newton : NewtonVariableConfig) (hdt : 0 < newton.dt)
    (hms : 1 ≤ newton.max_steps) (st : SimState) (time : List ℚ) (t : ℚ)
    (idx : ℕ) (pq : List (ℚ × ℕ)) (hcons : st.query.Consistent st.pos)
    (hidx : idx < st.pos.length) :
    ∃ st2 time' pq', varStep sq cfg newton st time t idx pq
        = some (st2, time', pq') ∧
      st2.query.Consistent st2.pos ∧ st2.pos.length = st.pos.length ∧
      (∀ e ∈ pq', e ∈ pq ∨ e.2 = idx) ∧
      queueMeasure newton pq' + 1
        ≤ queueMeasure newton pq + potFn newton t := by
  obtain ⟨q', hrep, hcons', hrad, hradsq⟩ :=
    QueryAccelerator.replace_consistent hcons hidx
      (st.pos.getD idx 0 + (min t newton.dt - time.getD idx 0)
          • st.vel.getD idx 0
        + ((min t newton.dt - time.getD idx 0) ^ 2 / 2)
          • st.accel.getD idx 0)
  rw [varStep]
  simp only
  rw [hrep]
  refine ⟨_, _, _, rfl, ?_, ?_, ?_, ?_⟩
  · exact hcons'
  · simp
  · intro e he
    by_cases hlt : min t newton.dt < newton.dt
    · rw [if_pos hlt] at he
      rcases List.mem_append.1 he with he | he
      · exact Or.inl he
      · simp only [List.mem_singleton] at he
        subst he
        exact Or.inr rfl
    · rw [if_neg hlt] at he
      exact Or.inl he
  · by_cases hlt : min t newton.dt < newton.dt
    · rw [if_pos hlt, queueMeasure_append]
      have ht : t < newton.dt := by
        rcases min_lt_iff.1 hlt with h | h
        · exact h
        · exact absurd h (lt_irrefl _)
      rw [Nat.add_assoc]
      refine Nat.add_le_add_left ?_ _
      exact potFn_repush hdt hms ht (calculate_delta_time_ge sq _ _ _ _ _)
    · rw [if_neg hlt]
      have hp1 : 1 ≤ potFn newton t := by
        rw [potFn]
        omega
      omega

/-- The event loop drains the queue within `queueMeasure` iterations. -/
theorem varLoop_done (sq : ℚ → ℚ) (cfg : SimConfig)
    (newton : NewtonVariableConfig) (hdt : 0 < newton.dt)
    (hms : 1 ≤ newton.max_steps) :
    ∀ (fuel : ℕ) (st : SimState) (time : List ℚ) (pq : List (ℚ × ℕ)),
      st.query.Consistent st.pos → (∀ e ∈ pq, e.2 < st.pos.length) →
      queueMeasure newton pq ≤ fuel →
      ∃ st' time', varLoop sq cfg newton fuel st time pq
        = LoopRes.done st' time' := by
  intro fuel
  induction fuel with
  | zero =>
    intro st time pq _ _ hmeas
    have hpq : pq = [] := queueMeasure_eq_zero (Nat.le_zero.1 hmeas)
    subst hpq
    exact ⟨st, time, rfl⟩
  | succ n ih =>
    intro st time pq hcons hq hmeas
    rcases hpop : popMin pq with _ | p
    · refine ⟨st, time, ?_⟩
      rw [varLoop, hpop]
    · obtain ⟨⟨t, idx⟩, rest⟩ := p
      have hperm := popMin_perm hpop
      have hidx : idx < st.pos.length :=
        hq (t, idx) (hperm.symm.subset (List.mem_cons_self _ _))
      have hrest : ∀ e ∈ rest, e.2 < st.pos.length := fun e he =>
        hq e (hperm.symm.subset (List.mem_cons_of_mem _ he))
      obtain ⟨st2, time', pq', hstep, hcons2, hlen2, hmem2, hmeas2⟩ :=
        varStep_measure sq cfg newton hdt hms st time t idx rest hcons hidx
      have hq2 : ∀ e ∈ pq', e.2 < st2.pos.length := by
        intro e he
        rw [hlen2]
        rcases hmem2 e he with h | h
        · exact hrest e h
        · rw [h]
          exact hidx
      have hmeaspq : queueMeasure newton pq
          = potFn newton t + queueMeasure newton rest := by
        rw [queueMeasure_perm hperm, queueMeasure_cons]
      have hm3 : queueMeasure newton pq' ≤ n := by omega
      obtain ⟨st', time'', hdone⟩ := ih st2 time' pq' hcons2 hq2 hm3
      refine ⟨st', time'', ?_⟩
      rw [varLoop, hpop]
      simp only [hstep, hdone]

/-! ### Claims -/

/-- C1: for every point set, radius `r > 0` and query index `q`, with the
accelerator built by `QueryAccelerator::new` from that point set at radius
`r`, `query_neighbors(points, q, points[q])` yields exactly the indices
`j ≠ q` whose Euclidean distance to `points[q]` is at most `r` (stated via
the equivalent squared-distance comparison `distSq ≤ r · r`), each index
exactly once, in unspecified order. -/
theorem c1_query_neighbors_exact (points : List Vec3) (r : ℚ) (q : ℕ)
    (hr : 0 < r) :
    ((QueryAccelerator.new points r).query_neighbors points q
        (points.getD q 0)).Nodup ∧
      ∀ j, j ∈ (QueryAccelerator.new points r).query_neighbors points q
          (points.getD q 0) ↔
        j < points.length ∧ j ≠ q ∧
          Vec3.distSq (points.getD j 0) (points.getD q 0) ≤ r * r :=
  QueryAccelerator.query_neighbors_exact points r q hr

/-- Witness for C1 at a concrete three-point set with radius `3/4`. -/
theorem c1_query_neighbors_exact_witness :
    (0 : ℚ) < 3 / 4 ∧
      (((QueryAccelerator.new [⟨0, 0, 0⟩, ⟨1/2, 0, 0⟩, ⟨2, 0, 0⟩]
          (3/4)).query_neighbors [⟨0, 0, 0⟩, ⟨1/2, 0, 0⟩, ⟨2, 0, 0⟩] 0
          (([⟨0, 0, 0⟩, ⟨1/2, 0, 0⟩, ⟨2, 0, 0⟩] : List Vec3).getD 0 0)).Nodup ∧
        ∀ j, j ∈ (QueryAccelerator.new [⟨0, 0, 0⟩, ⟨1/2, 0, 0⟩, ⟨2, 0, 0⟩]
            (3/4)).query_neighbors [⟨0, 0, 0⟩, ⟨1/2, 0, 0⟩, ⟨2, 0, 0⟩] 0
            (([⟨0, 0, 0⟩, ⟨1/2, 0, 0⟩, ⟨2, 0, 0⟩] : List Vec3).getD 0 0) ↔
          j < ([⟨0, 0, 0⟩, ⟨1/2, 0, 0⟩, ⟨2, 0, 0⟩] : List Vec3).length ∧
            j ≠ 0 ∧
            Vec3.distSq (([⟨0, 0, 0⟩, ⟨1/2, 0, 0⟩, ⟨2, 0, 0⟩] : List Vec3).getD
              j 0) (([⟨0, 0, 0⟩, ⟨1/2, 0, 0⟩, ⟨2, 0, 0⟩] : List Vec3).getD 0 0)
              ≤ 3/4 * (3/4)) :=
  ⟨by norm_num, c1_query_neighbors_exact _ _ 0 (by norm_num)⟩

/-- C2: starting from `QueryAccelerator::new(points, r)` and after any
sequence of `replace_point` calls each of which moves a live particle index
from its currently recorded position, the buckets of `tiles()` contain
every index `j < N` exactly once (no duplicates, no omissions), no other
index at all, and the bucket holding `j` is the one keyed by the
componentwise floor of `j`'s current position divided by the radius. -/
theorem c2_replace_point_invariant (points : List Vec3) (r : ℚ)
    (moves : List (ℕ × Vec3)) (hm : ∀ m ∈ moves, m.1 < points.length) :
    ∃ a' pos', QueryAccelerator.applyMoves (QueryAccelerator.new points r)
        points moves = some (a', pos') ∧ pos'.length = points.length ∧
      (∀ j, CellMap.occurrences a'.tiles j
          = if j < points.length then 1 else 0) ∧
      ∀ e ∈ a'.tiles, ∀ j ∈ e.2, e.1 = quantize (pos'.getD j 0) r := by
  obtain ⟨a', pos', happ, hcons, hrad, hlen⟩ :=
    QueryAccelerator.applyMoves_consistent moves _ points
      (QueryAccelerator.new_consistent points r) hm
  obtain ⟨hnd, hocc, hkey⟩ := hcons
  refine ⟨a', pos', happ, hlen, fun j => ?_, fun e he j hj => ?_⟩
  · rw [QueryAccelerator.tiles, hocc j, hlen]
  · have hk := hkey e he j hj
    rw [QueryAccelerator.tiles] at *
    rw [hk, QueryAccelerator.keyOf, hrad, QueryAccelerator.new_radius]

/-- Witness for C2: two particles, one relocation across a cell boundary. -/
theorem c2_replace_point_invariant_witness :
    (∀ m ∈ ([(0, ⟨2, 0, 0⟩)] : List (ℕ × Vec3)), m.1
        < ([⟨0, 0, 0⟩, ⟨1/2, 0, 0⟩] : List Vec3).length) ∧
      ∃ a' pos', QueryAccelerator.applyMoves
          (QueryAccelerator.new [⟨0, 0, 0⟩, ⟨1/2, 0, 0⟩] 1)
          [⟨0, 0, 0⟩, ⟨1/2, 0, 0⟩] [(0, ⟨2, 0, 0⟩)] = some (a', pos') ∧
        pos'.length = ([⟨0, 0, 0⟩, ⟨1/2, 0, 0⟩] : List Vec3).length ∧
        (∀ j, CellMap.occurrences a'.tiles j
            = if j < ([⟨0, 0, 0⟩, ⟨1/2, 0, 0⟩] : List Vec3).length then 1
              else 0) ∧
        ∀ e ∈ a'.tiles, ∀ j ∈ e.2, e.1 = quantize (pos'.getD j 0) 1 :=
  ⟨by decide, c2_replace_point_invariant [⟨0, 0, 0⟩, ⟨1/2, 0, 0⟩] 1
    [(0, ⟨2, 0, 0⟩)] (by decide)⟩

/-- C3: for the behaviour `default_repulse = 1`, `inter_threshold = 1/4`,
`inter_strength = 3`, `inter_max_dist = 3/4`, the force takes the six
specified values, and is a linear repulsion ramp from `-default_repulse`
at distance `0` to `0` at the threshold, a tent peaking at
`+inter_strength` at the midpoint `1/2` of the interaction interval, and
`0` beyond `inter_max_dist`. -/
theorem c3_force_shape :
    (Behaviour.force ⟨1, 1/4, 3, 3/4⟩ 0 = -1 ∧
      Behaviour.force ⟨1, 1/4, 3, 3/4⟩ (1/4) = 0 ∧
      Behaviour.force ⟨1, 1/4, 3, 3/4⟩ (3/8) = 3/2 ∧
      Behaviour.force ⟨1, 1/4, 3, 3/4⟩ (1/2) = 3 ∧
      Behaviour.force ⟨1, 1/4, 3, 3/4⟩ (3/4) = 0 ∧
      Behaviour.force ⟨1, 1/4, 3, 3/4⟩ (17/20) = 0) ∧
    (∀ d : ℚ, d < 1/4 →
      Behaviour.force ⟨1, 1/4, 3, 3/4⟩ d = -1 + 4 * d) ∧
    (∀ d : ℚ, 1/4 ≤ d → d ≤ 1/2 →
      Behaviour.force ⟨1, 1/4, 3, 3/4⟩ d = 12 * (d - 1/4)) ∧
    (∀ d : ℚ, 1/2 ≤ d → d ≤ 3/4 →
      Behaviour.force ⟨1, 1/4, 3, 3/4⟩ d = 12 * (3/4 - d)) ∧
    (∀ d : ℚ, 3/4 < d → Behaviour.force ⟨1, 1/4, 3, 3/4⟩ d = 0) := by
  have ramp : ∀ d : ℚ, d < 1/4 →
      Behaviour.force ⟨1, 1/4, 3, 3/4⟩ d = -1 + 4 * d := by
    intro d h2
    have hpos : d < (1 : ℚ)/4 := h2
    simp only [Behaviour.force, hpos, if_true]
    ring
  have up : ∀ d : ℚ, 1/4 ≤ d → d ≤ 1/2 →
      Behaviour.force ⟨1, 1/4, 3, 3/4⟩ d = 12 * (d - 1/4) := by
    intro d h1 h2
    have hnot1 : ¬d < (1 : ℚ)/4 := not_lt.2 h1
    have hnot2 : ¬(3 : ℚ)/4 < d := not_lt.2 (by linarith)
    simp only [Behaviour.force, hnot1, hnot2, if_false]
    have ha : (d - 1/4) / ((3 : ℚ)/4 - 1/4) * 2 - 1 = 4 * d - 2 := by ring
    rw [ha, abs_of_nonpos (by linarith)]
    ring
  have down : ∀ d : ℚ, 1/2 ≤ d → d ≤ 3/4 →
      Behaviour.force ⟨1, 1/4, 3, 3/4⟩ d = 12 * (3/4 - d) := by
    intro d h1 h2
    have hnot1 : ¬d < (1 : ℚ)/4 := not_lt.2 (by linarith)
    have hnot2 : ¬(3 : ℚ)/4 < d := not_lt.2 h2
    simp only [Behaviour.force, hnot1, hnot2, if_false]
    have ha : (d - 1/4) / ((3 : ℚ)/4 - 1/4) * 2 - 1 = 4 * d - 2 := by ring
    rw [ha, abs_of_nonneg (by linarith)]
    ring
  have far : ∀ d : ℚ, 3/4 < d →
      Behaviour.force ⟨1, 1/4, 3, 3/4⟩ d = 0 := by
    intro d h1
    have hnot1 : ¬d < (1 : ℚ)/4 := not_lt.2 (by linarith)
    have hpos : (3 : ℚ)/4 < d := h1
    simp only [Behaviour.force, hnot1, hpos, if_false, if_true]
  refine ⟨⟨?_, ?_, ?_, ?_, ?_, ?_⟩, ramp, up, down, far⟩
  · rw [ramp 0 (by norm_num)]
    norm_num
  · rw [up (1/4) (by norm_num) (by norm_num)]
    norm_num
  · rw [up (3/8) (by norm_num) (by norm_num)]
    norm_num
  · rw [up (1/2) (by norm_num) (by norm_num)]
    norm_num
  · rw [down (3/4) (by norm_num) (by norm_num)]
    norm_num
  · rw [far (17/20) (by norm_num)]

/-- Witness for C3's universally quantified ramp/tent/zero clauses, at the
concrete distances `1/8`, `5/16`, `5/8` and `4/5`. -/
theorem c3_force_shape_witness :
    ((1 : ℚ)/8 < 1/4 ∧ Behaviour.force ⟨1, 1/4, 3, 3/4⟩ (1/8) = -1 + 4 * (1/8)) ∧
    ((1 : ℚ)/4 ≤ 5/16 ∧ (5 : ℚ)/16 ≤ 1/2 ∧
      Behaviour.force ⟨1, 1/4, 3, 3/4⟩ (5/16) = 12 * (5/16 - 1/4)) ∧
    ((1 : ℚ)/2 ≤ 5/8 ∧ (5 : ℚ)/8 ≤ 3/4 ∧
      Behaviour.force ⟨1, 1/4, 3, 3/4⟩ (5/8) = 12 * (3/4 - 5/8)) ∧
    ((3 : ℚ)/4 < 4/5 ∧ Behaviour.force ⟨1, 1/4, 3, 3/4⟩ (4/5) = 0) :=
  ⟨⟨by norm_num, c3_force_shape.2.1 (1/8) (by norm_num)⟩,
    ⟨by norm_num, by norm_num,
      c3_force_shape.2.2.1 (5/16) (by norm_num) (by norm_num)⟩,
    ⟨by norm_num, by norm_num,
      c3_force_shape.2.2.2.1 (5/8) (by norm_num) (by norm_num)⟩,
    ⟨by norm_num, c3_force_shape.2.2.2.2 (4/5) (by norm_num)⟩⟩

/-- C10: `replace_point(idx, old_pos, new_pos)` returns normally exactly
when `idx` is recorded in the bucket of `old_pos`'s quantized cell; when
that bucket is missing or does not contain `idx`, it panics (modelled as
`none`) rather than returning with the index silently unchanged or stale. -/
theorem c10_replace_point_fails_fast (a : QueryAccelerator) (idx : ℕ)
    (oldPos newPos : Vec3) :
    a.replace_point idx oldPos newPos = none ↔
      ∀ l, a.cells.getCell (quantize oldPos a.radius) = some l → idx ∉ l := by
  rw [QueryAccelerator.replace_point]
  rcases h : a.cells.getCell (quantize oldPos a.radius) with _ | l
  · simp
  · by_cases hin : idx ∈ l <;> simp [hin]

/-- C4 counterexample: two particles at `x = 0` and `x = 1/2`, both at rest,
behaviour `(1, 1/4, 3, 3/4)`, `dt = 1/12`, no damping.  `newton_step`
(which reads live positions) yields velocity `-11/48` for particle 1, while
the claim's snapshot-based update (`newton_step_snapshot`) yields `-1/4`:
the claim's "no particle's update affects any other particle's force
evaluation in the same step" is false for the code. -/
theorem c4_counterexample :
    (newton_step ratSqrt
        { pos := [⟨0, 0, 0⟩, ⟨1/2, 0, 0⟩], vel := [⟨0, 0, 0⟩, ⟨0, 0, 0⟩],
          accel := [⟨0, 0, 0⟩, ⟨0, 0, 0⟩], colors := [0, 0],
          query := QueryAccelerator.new [⟨0, 0, 0⟩, ⟨1/2, 0, 0⟩] (3/4) }
        { type_count := 1, behaviours := [⟨1, 1/4, 3, 3/4⟩] }
        { dt := 1/12, damping := 0 }).vel
      ≠ (newton_step_snapshot ratSqrt
        { pos := [⟨0, 0, 0⟩, ⟨1/2, 0, 0⟩], vel := [⟨0, 0, 0⟩, ⟨0, 0, 0⟩],
          accel := [⟨0, 0, 0⟩, ⟨0, 0, 0⟩], colors := [0, 0],
          query := QueryAccelerator.new [⟨0, 0, 0⟩, ⟨1/2, 0, 0⟩] (3/4) }
        { type_count := 1, behaviours := [⟨1, 1/4, 3, 3/4⟩] }
        { dt := 1/12, damping := 0 }).vel := by
  have h1 : (newton_step ratSqrt
      { pos := [⟨0, 0, 0⟩, ⟨1/2, 0, 0⟩], vel := [⟨0, 0, 0⟩, ⟨0, 0, 0⟩],
        accel := [⟨0, 0, 0⟩, ⟨0, 0, 0⟩], colors := [0, 0],
        query := QueryAccelerator.new [⟨0, 0, 0⟩, ⟨1/2, 0, 0⟩] (3/4) }
      { type_count := 1, behaviours := [⟨1, 1/4, 3, 3/4⟩] }
      { dt := 1/12, damping := 0 }).vel
      = [⟨1/4, 0, 0⟩, ⟨-11/48, 0, 0⟩] := by
    norm_num [newton_step, newtonStepOne, total_force,
      QueryAccelerator.query_neighbors, QueryAccelerator.new,
      QueryAccelerator.buildGo, CellMap.pushEntry, CellMap.getCell,
      quantize, cellAdd, neighborhood, List.range_succ, Vec3.distSq,
      Vec3.lengthSq, List.flatten, Vec3.length, Vec3.normalize,
      SimConfig.get_behaviour, Behaviour.force, List.foldl, ratSqrt,
      Int.floor_eq_iff, Rat.divInt_eq_div, abs_div, abs_neg, abs_one]
    simp
    norm_num
  have h2 : (newton_step_snapshot ratSqrt
      { pos := [⟨0, 0, 0⟩, ⟨1/2, 0, 0⟩], vel := [⟨0, 0, 0⟩, ⟨0, 0, 0⟩],
        accel := [⟨0, 0, 0⟩, ⟨0, 0, 0⟩], colors := [0, 0],
        query := QueryAccelerator.new [⟨0, 0, 0⟩, ⟨1/2, 0, 0⟩] (3/4) }
      { type_count := 1, behaviours := [⟨1, 1/4, 3, 3/4⟩] }
      { dt := 1/12, damping := 0 }).vel
      = [⟨1/4, 0, 0⟩, ⟨-1/4, 0, 0⟩] := by
    norm_num [newton_step_snapshot, total_force,
      QueryAccelerator.query_neighbors, QueryAccelerator.new,
      QueryAccelerator.buildGo, CellMap.pushEntry, CellMap.getCell,
      quantize, cellAdd, neighborhood, List.range_succ, Vec3.distSq,
      Vec3.lengthSq, List.flatten, Vec3.length, Vec3.normalize,
      SimConfig.get_behaviour, Behaviour.force, List.foldl, ratSqrt,
      Int.floor_eq_iff, Rat.divInt_eq_div, abs_div, abs_neg, abs_one]
    simp
    norm_num
  rw [h1, h2]
  intro h
  rw [List.cons.injEq, List.cons.injEq] at h
  have hx := congrArg Vec3.x h.2.1
  norm_num at hx

/-- C4 (amended): one `newton_step` updates every particle `i` to
`velocity' = (vel_i + F_i·dt)·(1−d)` and `position' = pos_i + velocity'·dt`,
but `vel_i`, `pos_i` and the force `F_i` are read from the live state
`newtonPrefix … i` in which particles `0..i-1` have already been updated
within the same step (a Gauss–Seidel sweep); the force evaluations are NOT
taken from the pre-step snapshot, so earlier particles' updates do affect
later particles' forces (see the counterexample) and the result depends on
the processing order `0, 1, …, N-1`. -/
theorem c4_gauss_seidel_update (sq : ℚ → ℚ) (cfg : SimConfig)
    (newton : NewtonConfig) (state : SimState) (i : ℕ)
    (hv : i < state.vel.length) (hp : i < state.pos.length) :
    (newton_step sq state cfg newton).vel.getD i 0
        = (1 - newton.damping) •
            ((newtonPrefix sq cfg newton state i).vel.getD i 0
              + newton.dt •
                total_force sq i (newtonPrefix sq cfg newton state i) cfg) ∧
      (newton_step sq state cfg newton).pos.getD i 0
        = (newtonPrefix sq cfg newton state i).pos.getD i 0
          + newton.dt • ((1 - newton.damping) •
              ((newtonPrefix sq cfg newton state i).vel.getD i 0
                + newton.dt •
                  total_force sq i (newtonPrefix sq cfg newton state i) cfg)) :=
  newton_step_getD sq cfg newton state i hv hp

/-- Witness for C4 (amended) at particle `1` of a concrete two-particle
state. -/
theorem c4_gauss_seidel_update_witness :
    1 < ([⟨0, 0, 0⟩, ⟨0, 0, 0⟩] : List Vec3).length ∧
      ((newton_step ratSqrt
          { pos := [⟨0, 0, 0⟩, ⟨1/2, 0, 0⟩], vel := [⟨0, 0, 0⟩, ⟨0, 0, 0⟩],
            accel := [⟨0, 0, 0⟩, ⟨0, 0, 0⟩], colors := [0, 0],
            query := QueryAccelerator.new [⟨0, 0, 0⟩, ⟨1/2, 0, 0⟩] (3/4) }
          { type_count := 1, behaviours := [⟨1, 1/4, 3, 3/4⟩] }
          { dt := 1/12, damping := 0 }).vel.getD 1 0
        = (1 - (0 : ℚ)) •
            ((newtonPrefix ratSqrt
                { type_count := 1, behaviours := [⟨1, 1/4, 3, 3/4⟩] }
                { dt := 1/12, damping := 0 }
                { pos := [⟨0, 0, 0⟩, ⟨1/2, 0, 0⟩],
                  vel := [⟨0, 0, 0⟩, ⟨0, 0, 0⟩],
                  accel := [⟨0, 0, 0⟩, ⟨0, 0, 0⟩], colors := [0, 0],
                  query := QueryAccelerator.new [⟨0, 0, 0⟩, ⟨1/2, 0, 0⟩]
                    (3/4) } 1).vel.getD 1 0
              + (1/12 : ℚ) •
                total_force ratSqrt 1
                  (newtonPrefix ratSqrt
                    { type_count := 1, behaviours := [⟨1, 1/4, 3, 3/4⟩] }
                    { dt := 1/12, damping := 0 }
                    { pos := [⟨0, 0, 0⟩, ⟨1/2, 0, 0⟩],
                      vel := [⟨0, 0, 0⟩, ⟨0, 0, 0⟩],
                      accel := [⟨0, 0, 0⟩, ⟨0, 0, 0⟩], colors := [0, 0],
                      query := QueryAccelerator.new [⟨0, 0, 0⟩, ⟨1/2, 0, 0⟩]
                        (3/4) } 1)
                  { type_count := 1, behaviours := [⟨1, 1/4, 3, 3/4⟩] })) :=
  ⟨by decide,
    (c4_gauss_seidel_update ratSqrt
      { type_count := 1, behaviours := [⟨1, 1/4, 3, 3/4⟩] }
      { dt := 1/12, damping := 0 }
      { pos := [⟨0, 0, 0⟩, ⟨1/2, 0, 0⟩], vel := [⟨0, 0, 0⟩, ⟨0, 0, 0⟩],
        accel := [⟨0, 0, 0⟩, ⟨0, 0, 0⟩], colors := [0, 0],
        query := QueryAccelerator.new [⟨0, 0, 0⟩, ⟨1/2, 0, 0⟩] (3/4) }
      1 (by decide) (by decide)).1⟩

/-- C5 (code bug): at the failing input — particle 0 at the origin with
velocity `(1,0,0)`, neighbor 1 at `(1/2,0,0)` at rest, frame `dt = 1`,
`max_steps = 10` — the source's `calculate_delta_time` computes
`rel_vel_sq = distance_squared(predict_vel, state.pos[idx])`, comparing the
neighbor's predicted *velocity* with the particle's *position*; that is `0`
here, so the neighbor is skipped and the code returns `min_dt = 1/10`.  The
spec's rule (`calculate_delta_time_spec`, the same computation with
`state.vel[idx]`) returns `sqrt(Δdist²/Δvel²) = sqrt((1/4)/1) = 1/2`. -/
theorem c5_rel_vel_uses_position :
    calculate_delta_time ratSqrt
        { pos := [⟨0, 0, 0⟩, ⟨1/2, 0, 0⟩], vel := [⟨1, 0, 0⟩, ⟨0, 0, 0⟩],
          accel := [⟨0, 0, 0⟩, ⟨0, 0, 0⟩], colors := [0, 0],
          query := QueryAccelerator.new [⟨0, 0, 0⟩, ⟨1/2, 0, 0⟩] (3/4) }
        [0, 0] 0 0 { dt := 1, sub_dt := 1, max_steps := 10, damping := 0 }
      = 1/10 ∧
    calculate_delta_time_spec ratSqrt
        { pos := [⟨0, 0, 0⟩, ⟨1/2, 0, 0⟩], vel := [⟨1, 0, 0⟩, ⟨0, 0, 0⟩],
          accel := [⟨0, 0, 0⟩, ⟨0, 0, 0⟩], colors := [0, 0],
          query := QueryAccelerator.new [⟨0, 0, 0⟩, ⟨1/2, 0, 0⟩] (3/4) }
        [0, 0] 0 0 { dt := 1, sub_dt := 1, max_steps := 10, damping := 0 }
      = 1/2 := by
  constructor
  · norm_num [calculate_delta_time, NewtonVariableConfig.min_dt, extrapolate,
      QueryAccelerator.query_neighbors, QueryAccelerator.new,
      QueryAccelerator.buildGo, CellMap.pushEntry, CellMap.getCell,
      quantize, cellAdd, neighborhood, List.range_succ, Vec3.distSq,
      Vec3.lengthSq, List.flatten, List.foldl, ratSqrt, Int.floor_eq_iff]
  · norm_num [calculate_delta_time_spec, NewtonVariableConfig.min_dt,
      extrapolate, QueryAccelerator.query_neighbors, QueryAccelerator.new,
      QueryAccelerator.buildGo, CellMap.pushEntry, CellMap.getCell,
      quantize, cellAdd, neighborhood, List.range_succ, Vec3.distSq,
      Vec3.lengthSq, List.flatten, List.foldl, ratSqrt, Int.floor_eq_iff]

set_option maxHeartbeats 1600000 in
/-- C6 (code bug): one particle at the origin with velocity `(1,0,0)`, no
neighbors (so both accelerations are `0`), frame `dt = 1`, `max_steps = 1`,
no damping.  The queue loop processes the particle once with `Δt = 1`.  The
claim's update (`velocity += (a_old + a_new)·Δt/2`) leaves the velocity at
`(1,0,0)`; the source computes `vel = vel + vel*dt + (a_old+a_new)*dt/2`,
whose spurious `vel*dt` term yields `(2,0,0)`.  The position update
(`position += velocity·Δt + a_old·Δt²/2 = (1,0,0)`) matches the claim. -/
theorem c6_velocity_update_extra_term :
    (newton_step_variable_dt ratSqrt 2
        { pos := [⟨0, 0, 0⟩], vel := [⟨1, 0, 0⟩], accel := [⟨0, 0, 0⟩],
          colors := [0], query := QueryAccelerator.new [⟨0, 0, 0⟩] 1 }
        { type_count := 1, behaviours := [⟨1, 1/4, 3, 3/4⟩] }
        { dt := 1, sub_dt := 1, max_steps := 1, damping := 0 }).velOf
      = [⟨2, 0, 0⟩] ∧
    (newton_step_variable_dt ratSqrt 2
        { pos := [⟨0, 0, 0⟩], vel := [⟨1, 0, 0⟩], accel := [⟨0, 0, 0⟩],
          colors := [0], query := QueryAccelerator.new [⟨0, 0, 0⟩] 1 }
        { type_count := 1, behaviours := [⟨1, 1/4, 3, 3/4⟩] }
        { dt := 1, sub_dt := 1, max_steps := 1, damping := 0 }).posOf
      = [⟨1, 0, 0⟩] := by
  constructor <;>
    norm_num [newton_step_variable_dt, varLoop, varStep, popMin,
      calculate_delta_time, total_force_extrapolate, extrapolate,
      NewtonVariableConfig.min_dt, QueryAccelerator.query_neighbors,
      QueryAccelerator.new, QueryAccelerator.replace_point,
      QueryAccelerator.buildGo, CellMap.pushEntry, CellMap.getCell,
      CellMap.updateCell, quantize, cellAdd, neighborhood, List.range_succ,
      Vec3.distSq, Vec3.lengthSq, List.flatten, List.foldl, ratSqrt,
      Int.floor_eq_iff, List.erase, LoopRes.velOf, LoopRes.posOf,
      List.replicate] <;> simp <;> norm_num

/-- C9 counterexample: a single particle with velocity `(1,0,0)`, timestep
`1`, damping `0`, index built at radius `1`.  `newton_step` moves it from
cell `(0,0,0)` to cell `(1,0,0)` but never calls `replace_point`: the index
after the step is exactly the pre-step index, it has no bucket at the
particle's new cell, and the spec's Spatial-Index invariant fails for the
post-step state — refuting "replace_point is invoked ... for every particle
that moved, before any subsequent neighbor query". -/
theorem c9_counterexample :
    (newton_step ratSqrt
        { pos := [⟨0, 0, 0⟩], vel := [⟨1, 0, 0⟩], accel := [⟨0, 0, 0⟩],
          colors := [0], query := QueryAccelerator.new [⟨0, 0, 0⟩] 1 }
        { type_count := 1, behaviours := [⟨1, 1/4, 3, 3/4⟩] }
        { dt := 1, damping := 0 }).query
        = QueryAccelerator.new [⟨0, 0, 0⟩] 1 ∧
      (newton_step ratSqrt
        { pos := [⟨0, 0, 0⟩], vel := [⟨1, 0, 0⟩], accel := [⟨0, 0, 0⟩],
          colors := [0], query := QueryAccelerator.new [⟨0, 0, 0⟩] 1 }
        { type_count := 1, behaviours := [⟨1, 1/4, 3, 3/4⟩] }
        { dt := 1, damping := 0 }).pos = [⟨1, 0, 0⟩] ∧
      ¬ QueryAccelerator.Consistent
        (newton_step ratSqrt
          { pos := [⟨0, 0, 0⟩], vel := [⟨1, 0, 0⟩], accel := [⟨0, 0, 0⟩],
            colors := [0], query := QueryAccelerator.new [⟨0, 0, 0⟩] 1 }
          { type_count := 1, behaviours := [⟨1, 1/4, 3, 3/4⟩] }
          { dt := 1, damping := 0 }).query
        (newton_step ratSqrt
          { pos := [⟨0, 0, 0⟩], vel := [⟨1, 0, 0⟩], accel := [⟨0, 0, 0⟩],
            colors := [0], query := QueryAccelerator.new [⟨0, 0, 0⟩] 1 }
          { type_count := 1, behaviours := [⟨1, 1/4, 3, 3/4⟩] }
          { dt := 1, damping := 0 }).pos := by
  have hq : (newton_step ratSqrt
      { pos := [⟨0, 0, 0⟩], vel := [⟨1, 0, 0⟩], accel := [⟨0, 0, 0⟩],
        colors := [0], query := QueryAccelerator.new [⟨0, 0, 0⟩] 1 }
      { type_count := 1, behaviours := [⟨1, 1/4, 3, 3/4⟩] }
      { dt := 1, damping := 0 }).query = QueryAccelerator.new [⟨0, 0, 0⟩] 1 :=
    newton_step_query _ _ _ _
  have hp : (newton_step ratSqrt
      { pos := [⟨0, 0, 0⟩], vel := [⟨1, 0, 0⟩], accel := [⟨0, 0, 0⟩],
        colors := [0], query := QueryAccelerator.new [⟨0, 0, 0⟩] 1 }
      { type_count := 1, behaviours := [⟨1, 1/4, 3, 3/4⟩] }
      { dt := 1, damping := 0 }).pos = [⟨1, 0, 0⟩] := by
    simp [newton_step, newtonStepOne, total_force,
      QueryAccelerator.query_neighbors, QueryAccelerator.new,
      QueryAccelerator.buildGo, CellMap.pushEntry, CellMap.getCell,
      quantize, cellAdd, neighborhood, List.range_succ, Vec3.distSq,
      Vec3.lengthSq, List.flatten, Vec3.length, Vec3.normalize,
      SimConfig.get_behaviour, Behaviour.force, List.foldl]
  refine ⟨hq, hp, ?_⟩
  intro hcons
  have hocc := hcons.2.1 0
  rw [hp] at hocc
  simp only [List.length_cons, List.length_nil, Nat.zero_lt_succ, if_pos] at hocc
  obtain ⟨e, he, hin⟩ := CellMap.exists_mem_of_occurrences_pos
    (by rw [hocc]; omega)
  have hkey := hcons.2.2 e he 0 hin
  rw [hq] at he
  rw [hp, hq] at hkey
  have he' : e = ((0, 0, 0), [0]) := by
    have hcells : (QueryAccelerator.new [(⟨0, 0, 0⟩ : Vec3)] 1).cells
        = [((0, 0, 0), [0])] := by
      simp [QueryAccelerator.new, QueryAccelerator.buildGo, CellMap.pushEntry,
        quantize]
    rw [hcells] at he
    simpa using he
  rw [he'] at hkey
  simp [QueryAccelerator.keyOf, quantize, QueryAccelerator.new_radius,
    Prod.mk.injEq] at hkey
  exact absurd hkey (by decide)

/-- C9 (amended): the fixed-step path keeps the spatial index consistent
not incrementally but by a full rebuild: `newton_step` never touches the
index (its post-step index is its pre-step index, with no `replace_point`
call), and `ClientState::update` reconstructs the index from scratch from
the current positions at the start of every frame — before the step and its
neighbor queries — even in steady state. -/
theorem c9_index_full_rebuild (sq : ℚ → ℚ) (st : SimState) (cfg : SimConfig)
    (newton : NewtonConfig) :
    (clientUpdate sq st cfg newton false).query
        = QueryAccelerator.new st.pos cfg.max_interaction_radius ∧
      (newton_step sq st cfg newton).query = st.query := by
  constructor
  · rw [clientUpdate]
    simp only [Bool.false_eq_true, if_false]
    rw [newton_step_query]
  · exact newton_step_query sq st cfg newton

/-- C7: for every particle population whose spatial index is consistent
with its positions (as `QueryAccelerator::new` establishes), frame
timestep `dt > 0` and `max_steps ≥ 1`, the priority-queue loop of
`newton_step_variable_dt` terminates by draining the heap:
`N · max_steps` loop iterations always suffice (no panic, no leftover
queue), where `max_steps = frame_dt / min_dt` is the per-entry bound on
scheduled events — each re-push advances the particle's scheduled time by
at least `min_dt` and happens only strictly before the frame boundary. -/
theorem c7_variable_dt_terminates (sq : ℚ → ℚ) (cfg : SimConfig)
    (newton : NewtonVariableConfig) (st : SimState) (hdt : 0 < newton.dt)
    (hms : 1 ≤ newton.max_steps) (hcons : st.query.Consistent st.pos) :
    ∃ st' time', newton_step_variable_dt sq
        (st.pos.length * newton.max_steps) st cfg newton
      = LoopRes.done st' time' := by
  have hq : ∀ e ∈ (List.range st.pos.length).map fun i =>
      (calculate_delta_time sq st (List.replicate st.pos.length 0) i 0 newton,
        i), e.2 < st.pos.length := by
    intro e he
    obtain ⟨i, hi, rfl⟩ := List.mem_map.1 he
    exact List.mem_range.1 hi
  have hm : queueMeasure newton ((List.range st.pos.length).map fun i =>
      (calculate_delta_time sq st (List.replicate st.pos.length 0) i 0 newton,
        i)) ≤ st.pos.length * newton.max_steps := by
    rw [queueMeasure]
    have hb := List.sum_le_card_nsmul
      (((List.range st.pos.length).map fun i =>
        (calculate_delta_time sq st (List.replicate st.pos.length 0) i 0
          newton, i)).map fun e => potFn newton e.1) newton.max_steps ?_
    · rw [List.length_map, List.length_map, List.length_range,
        smul_eq_mul] at hb
      exact hb
    · intro x hx
      obtain ⟨e, he, rfl⟩ := List.mem_map.1 hx
      obtain ⟨i, _, rfl⟩ := List.mem_map.1 he
      exact potFn_le_max_steps hdt hms (calculate_delta_time_ge sq _ _ _ _ _)
  obtain ⟨st', time', hdone⟩ := varLoop_done sq cfg newton hdt hms
    (st.pos.length * newton.max_steps) st
    (List.replicate st.pos.length 0)
    ((List.range st.pos.length).map fun i =>
      (calculate_delta_time sq st (List.replicate st.pos.length 0) i 0 newton,
        i))
    hcons hq hm
  refine ⟨{ st' with
    vel := st'.vel.map (fun v => (1 - newton.damping) • v) }, time', ?_⟩
  rw [newton_step_variable_dt]
  simp only [hdone]

/-- Witness for C7: one particle, `dt = 1`, `max_steps = 1`, a freshly
built (hence consistent) index. -/
theorem c7_variable_dt_terminates_witness :
    (0 : ℚ) < 1 ∧ 1 ≤ 1 ∧
      (QueryAccelerator.new [(⟨0, 0, 0⟩ : Vec3)] 1).Consistent [⟨0, 0, 0⟩] ∧
      ∃ st' time', newton_step_variable_dt ratSqrt
          (([(⟨0, 0, 0⟩ : Vec3)] : List Vec3).length * 1)
          { pos := [⟨0, 0, 0⟩], vel := [⟨1, 0, 0⟩], accel := [⟨0, 0, 0⟩],
            colors := [0], query := QueryAccelerator.new [⟨0, 0, 0⟩] 1 }
          { type_count := 1, behaviours := [⟨1, 1/4, 3, 3/4⟩] }
          { dt := 1, sub_dt := 1, max_steps := 1, damping := 0 }
        = LoopRes.done st' time' :=
  ⟨by norm_num, le_refl 1, QueryAccelerator.new_consistent [⟨0, 0, 0⟩] 1,
    c7_variable_dt_terminates ratSqrt
      { type_count := 1, behaviours := [⟨1, 1/4, 3, 3/4⟩] }
      { dt := 1, sub_dt := 1, max_steps := 1, damping := 0 }
      { pos := [⟨0, 0, 0⟩], vel := [⟨1, 0, 0⟩], accel := [⟨0, 0, 0⟩],
        colors := [0], query := QueryAccelerator.new [⟨0, 0, 0⟩] 1 }
      (by norm_num) (le_refl 1)
      (QueryAccelerator.new_consistent [⟨0, 0, 0⟩] 1)⟩

/-- C8: one Metropolis substep with explicit random draws (the drawn
particle `idx`, the Gaussian noise pair added to its position, and the
uniform acceptance draw `u`).  With
`ΔE = energy_due_to(idx, candidate) − energy_due_to(idx, original)` — both
queried from the unmoved index — the step accepts exactly when
`exp(−ΔE/temperature) > u`.  On acceptance, only `positions[idx]` changes
(to the candidate) and the index is patched via `replace_point`; on
rejection, the returned state is exactly the input (positions, types,
rules, index all unchanged). -/
theorem c8_metropolis_substep (sq ex : ℚ → ℚ) (sim : Sim) (idx : ℕ)
    (noise : ℚ × ℚ) (u : ℚ) (l : List ℕ)
    (hget : sim.accel.cells.getCell
        (quantize2 (sim.state.positions.getD idx 0) sim.accel.radius)
        = some l)
    (hin : idx ∈ l) :
    (ex (-(sim.energy_due_to sq idx
          ⟨(sim.state.positions.getD idx 0).x + noise.1,
            (sim.state.positions.getD idx 0).y + noise.2⟩
        - sim.energy_due_to sq idx (sim.state.positions.getD idx 0))
        / sim.temperature) > u →
      ∃ accel', sim.accel.replace_point idx (sim.state.positions.getD idx 0)
          ⟨(sim.state.positions.getD idx 0).x + noise.1,
            (sim.state.positions.getD idx 0).y + noise.2⟩ = some accel' ∧
        sim.step sq ex idx noise u = some
          { sim with
            state := { sim.state with
              positions := sim.state.positions.set idx
                ⟨(sim.state.positions.getD idx 0).x + noise.1,
                  (sim.state.positions.getD idx 0).y + noise.2⟩ }
            accel := accel' }) ∧
    (¬ ex (-(sim.energy_due_to sq idx
          ⟨(sim.state.positions.getD idx 0).x + noise.1,
            (sim.state.positions.getD idx 0).y + noise.2⟩
        - sim.energy_due_to sq idx (sim.state.positions.getD idx 0))
        / sim.temperature) > u →
      sim.step sq ex idx noise u = some sim) := by
  constructor
  · intro hacc
    have hrep : sim.accel.replace_point idx (sim.state.positions.getD idx 0)
        ⟨(sim.state.positions.getD idx 0).x + noise.1,
          (sim.state.positions.getD idx 0).y + noise.2⟩
        = some { sim.accel with
          cells := (sim.accel.cells.updateCell
            (quantize2 (sim.state.positions.getD idx 0) sim.accel.radius)
            (l.erase idx)).pushEntry
              (quantize2 ⟨(sim.state.positions.getD idx 0).x + noise.1,
                (sim.state.positions.getD idx 0).y + noise.2⟩
                sim.accel.radius) idx } := by
      rw [Accel2.replace_point, hget]
      simp [hin]
    refine ⟨_, hrep, ?_⟩
    rw [Sim.step]
    simp only
    rw [if_pos hacc, hrep]
  · intro hrej
    rw [Sim.step]
    simp only
    rw [if_neg hrej]

/-- Witness for C8: a two-particle 2-D simulation with `idx = 0`; the
recorded position's bucket contains `0`, and with an `exp` model returning
`0` the draw `u = 1/2` rejects, leaving the state untouched. -/
theorem c8_metropolis_substep_witness :
    ((Accel2.new [⟨0, 0⟩, ⟨1/2, 0⟩] 1).cells.getCell
        (quantize2 (([⟨0, 0⟩, ⟨1/2, 0⟩] : List Vec2).getD 0 0)
          (Accel2.new [⟨0, 0⟩, ⟨1/2, 0⟩] 1).radius) = some [0, 1] ∧
      (0 : ℕ) ∈ ([0, 1] : List ℕ)) ∧
    Sim.step ratSqrt (fun _ => 0)
        { state := { positions := [⟨0, 0⟩, ⟨1/2, 0⟩], types := [0, 0] },
          accel := Accel2.new [⟨0, 0⟩, ⟨1/2, 0⟩] 1,
          rules := { particles := [{ interactions := [⟨0, 0⟩] }] },
          temperature := 1, walk_sigma := 1 } 0 (1, 0) (1/2)
      = some
        { state := { positions := [⟨0, 0⟩, ⟨1/2, 0⟩], types := [0, 0] },
          accel := Accel2.new [⟨0, 0⟩, ⟨1/2, 0⟩] 1,
          rules := { particles := [{ interactions := [⟨0, 0⟩] }] },
          temperature := 1, walk_sigma := 1 } := by
  have hget : (Accel2.new [⟨0, 0⟩, ⟨1/2, 0⟩] 1).cells.getCell
      (quantize2 (([⟨0, 0⟩, ⟨1/2, 0⟩] : List Vec2).getD 0 0)
        (Accel2.new [⟨0, 0⟩, ⟨1/2, 0⟩] 1).radius) = some [0, 1] := by
    norm_num [Accel2.new, Accel2.buildGo, CellMap.pushEntry, CellMap.getCell,
      quantize2, Int.floor_eq_iff]
  refine ⟨⟨hget, by decide⟩, ?_⟩
  exact (c8_metropolis_substep ratSqrt (fun _ => 0)
    { state := { positions := [⟨0, 0⟩, ⟨1/2, 0⟩], types := [0, 0] },
      accel := Accel2.new [⟨0, 0⟩, ⟨1/2, 0⟩] 1,
      rules := { particles := [{ interactions := [⟨0, 0⟩] }] },
      temperature := 1, walk_sigma := 1 } 0 (1, 0) (1/2) [0, 1] hget
    (by decide)).2 (by norm_num)

/-- Witness for C10: a singleton accelerator queried with a stale cell:
`replace_point` from the wrong old position panics. -/
theorem c10_replace_point_fails_fast_witness :
    (QueryAccelerator.new [⟨0, 0, 0⟩] 1).replace_point 0 ⟨5, 5, 5⟩ ⟨0, 0, 0⟩
        = none ↔
      ∀ l, (QueryAccelerator.new [⟨0, 0, 0⟩] 1).cells.getCell
          (quantize ⟨5, 5, 5⟩ (QueryAccelerator.new [⟨0, 0, 0⟩] 1).radius)
          = some l → 0 ∉ l :=
  c10_replace_point_fails_fast (QueryAccelerator.new [⟨0, 0, 0⟩] 1) 0
    ⟨5, 5, 5⟩ ⟨0, 0, 0⟩

end ParticleLife
